import Mathlib

/-!
Verification of the sumpy expansion/kernel core.

This file gives a shallow embedding, in Lean 4, of the parts of the sumpy
repository that the checked properties talk about:

* the kernel model of `sumpy/kernel.py` (Laplace and Helmholtz kernels,
  derivative wrappers, difference kernels, scaling constants, and the
  Python object-identity semantics of kernel comparison);
* the expansion basis selector of `sumpy/expansion/__init__.py`
  (the Laplace recurrence oracle `try_get_recurrence_for_derivative`
  and the row-by-row construction `precompute_coeff_matrix`);
* the multi-index derivative cache of `sumpy/tools.py`
  (`MiDerivativeTaker` and `LinearRecurrenceBasedMiDerivativeTaker`).

Multi-indices are Python tuples of non-negative integers; they are embedded
as `List Nat`.  Python dicts keyed by multi-index are embedded as
association lists in insertion order, which matches the insertion-ordered
iteration of Python dicts.  Symbolic expressions are treated as values of
an abstract type `E`, equipped with exactly the operations the source uses
(differentiation with respect to one axis variable, scaling by a
coefficient, and summation), mirroring how the source only calls into an
external symbolic engine.
-/

namespace Sumpy

/-- A multi-index: a tuple of per-axis non-negative derivative orders
(`sumpy/tools.py`, multi_index helpers). -/
abbrev MultiIndex := List Nat

/-! ## Kernel model (`sumpy/kernel.py`)

`Kernel` instances are ordinary Python objects.  The class defines no
`__eq__` and no `__hash__`, so `==` and `hash` fall back to the CPython
defaults: object identity and an identity-derived hash.  We therefore
embed a kernel *instance* as a constructor tree that carries the object
identity `objId` of every node; distinct live Python objects always have
distinct ids. -/

/-- A kernel instance tree.  Each node records its Python object id and its
constructor arguments, following the classes of `sumpy/kernel.py`:
`LaplaceKernel(dimensions)`, `HelmholtzKernel(dimensions, helmholtz_k_name,
allow_evanescent)`, `DifferenceKernel(kernel_plus, kernel_minus)`,
`AxisTargetDerivative(axis, kernel)`, `DirectionalTargetDerivative(kernel,
derivative_expression)` and `DirectionalSourceDerivative(kernel,
derivative_expression)`.  The directional derivative expressions play no
role in the checked properties and are elided. -/
inductive KernelI where
  | laplace (objId : Nat) (dimensions : Option Nat)
  | helmholtz (objId : Nat) (dimensions : Option Nat)
      (helmholtzKName : String) (allowEvanescent : Bool)
  | difference (objId : Nat) (kernelPlus kernelMinus : KernelI)
  | axisTargetDerivative (objId : Nat) (axis : Nat) (inner : KernelI)
  | directionalTargetDerivative (objId : Nat) (inner : KernelI)
  | directionalSourceDerivative (objId : Nat) (inner : KernelI)
deriving DecidableEq, Repr

namespace KernelI

/-- The Python object id of a kernel instance. -/
def objId : KernelI → Nat
  | laplace i _ => i
  | helmholtz i _ _ _ => i
  | difference i _ _ => i
  | axisTargetDerivative i _ _ => i
  | directionalTargetDerivative i _ => i
  | directionalSourceDerivative i _ => i

/-- `self.dimensions`.  `Kernel.__init__` stores the constructor argument;
`KernelWrapper.__init__` copies `kernel.dimensions` from the wrapped kernel
and `DifferenceKernel.__init__` copies `kernel_plus.dimensions`, so on the
tree the attribute is computed from the underlying node. -/
def dimensions : KernelI → Option Nat
  | laplace _ d => d
  | helmholtz _ d _ _ => d
  | difference _ p _ => p.dimensions
  | axisTargetDerivative _ _ k => k.dimensions
  | directionalTargetDerivative _ k => k.dimensions
  | directionalSourceDerivative _ k => k.dimensions

/-- `get_base_kernel`: the base `Kernel.get_base_kernel` returns `self`
(and `DifferenceKernel` inherits it), while `KernelWrapper.get_base_kernel`
delegates to the wrapped kernel. -/
def getBaseKernel : KernelI → KernelI
  | laplace i d => laplace i d
  | helmholtz i d n e => helmholtz i d n e
  | difference i p m => difference i p m
  | axisTargetDerivative _ _ k => k.getBaseKernel
  | directionalTargetDerivative _ k => k.getBaseKernel
  | directionalSourceDerivative _ k => k.getBaseKernel

/-- Whether the node is one of the `KernelWrapper` subclasses. -/
def isWrapper : KernelI → Bool
  | axisTargetDerivative _ _ _ => true
  | directionalTargetDerivative _ _ => true
  | directionalSourceDerivative _ _ => true
  | _ => false

/-- All object ids occurring in the instance tree. -/
def idList : KernelI → List Nat
  | laplace i _ => [i]
  | helmholtz i _ _ _ => [i]
  | difference i p m => i :: (p.idList ++ m.idList)
  | axisTargetDerivative i _ k => i :: k.idList
  | directionalTargetDerivative i k => i :: k.idList
  | directionalSourceDerivative i k => i :: k.idList

end KernelI

/-- Python `is`: object identity, i.e. equality of object ids. -/
def pyIs (a b : KernelI) : Bool := a.objId == b.objId

/-- Python `==` on kernels.  `Kernel` defines no `__eq__`, so this is the
CPython default: object identity. -/
def kernelEqPy (a b : KernelI) : Bool := pyIs a b

/-- Python `hash` on kernels.  `Kernel` defines no `__hash__`, so this is
the CPython default hash, an injective function of the object id for
simultaneously live objects; we use the object id itself. -/
def pyHash (k : KernelI) : Nat := k.objId

/-- Structural comparison of kernels as the spec describes equality:
same variant and same constructor arguments, recursively through
wrappers, ignoring object identity.  This is a spec-side definition, to be
compared against the actual `kernelEqPy`. -/
def sameVariantArgs : KernelI → KernelI → Bool
  | .laplace _ d1, .laplace _ d2 => d1 == d2
  | .helmholtz _ d1 n1 e1, .helmholtz _ d2 n2 e2 =>
      d1 == d2 && n1 == n2 && e1 == e2
  | .difference _ p1 m1, .difference _ p2 m2 =>
      sameVariantArgs p1 p2 && sameVariantArgs m1 m2
  | .axisTargetDerivative _ a1 k1, .axisTargetDerivative _ a2 k2 =>
      a1 == a2 && sameVariantArgs k1 k2
  | .directionalTargetDerivative _ k1, .directionalTargetDerivative _ k2 =>
      sameVariantArgs k1 k2
  | .directionalSourceDerivative _ k1, .directionalSourceDerivative _ k2 =>
      sameVariantArgs k1 k2
  | _, _ => false

/-- `DifferenceKernel.__init__`: rejects operands that are not their own
base kernel (checked with Python `is`), then rejects operands with
differing `dimensions`; on success produces the difference kernel whose
`dimensions` is `kernel_plus.dimensions`. -/
def mkDifferenceKernel (freshId : Nat) (kernelPlus kernelMinus : KernelI) :
    Except String KernelI :=
  if pyIs kernelPlus.getBaseKernel kernelPlus = false
      || pyIs kernelMinus.getBaseKernel kernelMinus = false then
    .error "kernels in difference kernel must be basic, unwrapped PDE kernels"
  else if kernelPlus.dimensions != kernelMinus.dimensions then
    .error "kernels in difference kernel have different dimensions"
  else
    .ok (.difference freshId kernelPlus kernelMinus)

/-! ## Scaling constants (`get_scaling`)

The source returns sympy expressions; we embed the expression trees the
source builds, and interpret them into normal-form values `q·(re + im·i)·π^p`
to compare them with the constants the spec names. -/

/-- The fragment of sympy expressions appearing in `get_scaling`. -/
inductive SymScal where
  | intC (n : Int)
  | piC
  | imagUnit
  | divS (a b : SymScal)
  | mulS (a b : SymScal)
deriving DecidableEq, Repr

/-- A value `(re + im * i) * pi ^ pexp` with Gaussian-rational coefficient:
the normal form of all scaling constants. -/
structure GaussPi where
  re : ℚ
  im : ℚ
  pexp : ℤ
deriving DecidableEq, Repr

namespace GaussPi

def mul (a b : GaussPi) : GaussPi :=
  ⟨a.re * b.re - a.im * b.im, a.re * b.im + a.im * b.re, a.pexp + b.pexp⟩

def inv (a : GaussPi) : Option GaussPi :=
  let d := a.re * a.re + a.im * a.im
  if d = 0 then none else some ⟨a.re / d, -a.im / d, -a.pexp⟩

end GaussPi

/-- Evaluate a scaling expression to its normal-form value. -/
def evalScal : SymScal → Option GaussPi
  | .intC n => some ⟨(n : ℚ), 0, 0⟩
  | .piC => some ⟨1, 0, 1⟩
  | .imagUnit => some ⟨0, 1, 0⟩
  | .mulS a b => do
      let va ← evalScal a
      let vb ← evalScal b
      pure (va.mul vb)
  | .divS a b => do
      let va ← evalScal a
      let vb ← evalScal b
      let vbinv ← vb.inv
      pure (va.mul vbinv)

/-- `LaplaceKernel.get_scaling`: `1/(-2*sp.pi)` in dimension 2,
`1/(4*sp.pi)` in dimension 3, otherwise
`RuntimeError("unsupported dimensionality")`. -/
def laplaceGetScaling (dimensions : Option Nat) : Except String SymScal :=
  if dimensions = some 2 then
    .ok (.divS (.intC 1) (.mulS (.intC (-2)) .piC))
  else if dimensions = some 3 then
    .ok (.divS (.intC 1) (.mulS (.intC 4) .piC))
  else
    .error "unsupported dimensionality"

/-- `HelmholtzKernel.get_scaling`: `sp.I/4` in dimension 2,
`1/(4*sp.pi)` in dimension 3, otherwise
`RuntimeError("unsupported dimensionality")`. -/
def helmholtzGetScaling (dimensions : Option Nat) : Except String SymScal :=
  if dimensions = some 2 then
    .ok (.divS .imagUnit (.intC 4))
  else if dimensions = some 3 then
    .ok (.divS (.intC 1) (.mulS (.intC 4) .piC))
  else
    .error "unsupported dimensionality"

/-! ## Expansion basis selector (`sumpy/expansion/__init__.py`) -/

/-- Python `list.index(x)`: the index of the first occurrence of `x`,
`none` standing for the `ValueError` raised when `x` is absent. -/
def listIndex (l : List MultiIndex) (x : MultiIndex) : Option Nat :=
  match l with
  | [] => none
  | y :: ys => if y = x then some 0 else (listIndex ys x).map (· + 1)

/-- The `needed_derivs` of `LaplaceConformingVolumeTaylorExpansion.
try_get_recurrence_for_derivative`: for every axis `other_dim` of the
kernel other than `dim`, the reduced derivative with 2 added back at
`other_dim`. -/
def neededDerivs (kdim : Nat) (reducedDeriv : MultiIndex) (dim : Nat) :
    List MultiIndex :=
  ((List.range kdim).filter (fun otherDim => otherDim ≠ dim)).map
    (fun otherDim => reducedDeriv.set otherDim (reducedDeriv.getD otherDim 0 + 2))

/-- The `try`-block of `try_get_recurrence_for_derivative`: set the entry
at `in_terms_of.index(needed_deriv)` to `-1` for each needed derivative,
failing (the caught `ValueError`) as soon as one is absent. -/
def assignCoeffs (inTermsOf : List MultiIndex) (needed : List MultiIndex)
    (expr : List Int) : Option (List Int) :=
  match needed with
  | [] => some expr
  | nd :: rest =>
    match listIndex inTermsOf nd with
    | none => none
    | some i => assignCoeffs inTermsOf rest (expr.set i (-1))

/-- The needed derivatives for reducing `deriv` along axis `dim`:
`reduced = deriv` with 2 subtracted at `dim`, then 2 added at every other
axis. -/
def neededList (kdim : Nat) (deriv : MultiIndex) (dim : Nat) : List MultiIndex :=
  neededDerivs kdim (deriv.set dim (deriv.getD dim 0 - 2)) dim

/-- `LaplaceConformingVolumeTaylorExpansion.try_get_recurrence_for_derivative`:
for each axis `dim` with `deriv[dim] >= 2` (in increasing order, as
`np.nonzero` yields them), try to express the derivative through the
Laplace equation; return the coefficient row of the first axis for which
every needed derivative occurs in `in_terms_of`, and `None` if no axis
works. -/
def laplaceTryRecurrence (kdim : Nat) (deriv : MultiIndex)
    (inTermsOf : List MultiIndex) (ncoeffs : Nat) : Option (List Int) :=
  ((List.range deriv.length).filter (fun dim => 2 ≤ deriv.getD dim 0)).findSome?
    (fun dim => assignCoeffs inTermsOf (neededList kdim deriv dim)
      (List.replicate ncoeffs 0))

/-! ### `precompute_coeff_matrix`

The construction is generic in the recurrence oracle (Laplace and
Helmholtz both instantiate it), so the matrix is built over an arbitrary
commutative ring of coefficients. -/

/-- The running state of `precompute_coeff_matrix`: the stored identifiers,
all identifiers processed so far, and the matrix rows built so far (each of
length `ncoeffs`, truncated only at the very end). -/
structure PCState (R : Type) where
  stored : List MultiIndex
  soFar : List MultiIndex
  matrix : List (List R)
deriving Repr

variable {R : Type} [CommRing R]

/-- A length-`n` unit row with `1` in column `i`
(`row = np.zeros(ncoeffs); row[len(stored_identifiers)] = 1`). -/
def unitRow (n i : Nat) : List R :=
  (List.range n).map (fun j => if j = i then 1 else 0)

/-- `np.dot(np.transpose(coeff_matrix), expr[:ncoeffs_so_far])`: entry `j`
is the sum over the rows built so far of `matrix[i][j] * expr[i]`. -/
def dotRow (matrix : List (List R)) (expr : List R) (ncoeffs : Nat) : List R :=
  (List.range ncoeffs).map (fun j =>
    (List.range matrix.length).foldl
      (fun s i => s + (matrix.getD i []).getD j 0 * expr.getD i 0) 0)

/-- One iteration of the `for identifier in ...` loop of
`precompute_coeff_matrix`. -/
def pcStep (oracle : MultiIndex → List MultiIndex → Nat → Option (List R))
    (ncoeffs : Nat) (st : PCState R) (identifier : MultiIndex) : PCState R :=
  match oracle identifier st.soFar ncoeffs with
  | none =>
      { stored := st.stored ++ [identifier]
        soFar := st.soFar ++ [identifier]
        matrix := st.matrix ++ [unitRow ncoeffs st.stored.length] }
  | some expr =>
      { stored := st.stored
        soFar := st.soFar ++ [identifier]
        matrix := st.matrix ++ [dotRow st.matrix expr ncoeffs] }

/-- The whole loop of `precompute_coeff_matrix`. -/
def pcRun (oracle : MultiIndex → List MultiIndex → Nat → Option (List R))
    (ncoeffs : Nat) (st : PCState R) (ids : List MultiIndex) : PCState R :=
  ids.foldl (pcStep oracle ncoeffs) st

/-- `LinearRecurrenceBasedVolumeTaylorExpansion.precompute_coeff_matrix`:
returns `(stored_identifiers, coeff_matrix)`, the matrix being the stacked
rows truncated to `len(stored_identifiers)` columns. -/
def precomputeCoeffMatrix
    (oracle : MultiIndex → List MultiIndex → Nat → Option (List R))
    (fullIds : List MultiIndex) : List MultiIndex × List (List R) :=
  ((pcRun oracle fullIds.length ⟨[], [], []⟩ fullIds).stored,
    (pcRun oracle fullIds.length ⟨[], [], []⟩ fullIds).matrix.map
      (fun row => row.take
        (pcRun oracle fullIds.length ⟨[], [], []⟩ fullIds).stored.length))

/-- The positions, within the full identifier list, of the identifiers that
get stored (those where the oracle returns no recurrence when consulted
with the prefix processed before them).  Spec-side description used to
state where the identity rows sit. -/
def storedPositions (oracle : MultiIndex → List MultiIndex → Nat → Option (List R))
    (fullIds : List MultiIndex) : List Nat :=
  (List.range fullIds.length).filter
    (fun p => (oracle (fullIds.getD p []) (fullIds.take p) fullIds.length).isNone)

/-! ### Full coefficient identifiers (`get_full_coefficient_identifiers`)

The source computes
`sorted(gnitstam(self.order, self.kernel.dim), key=sum)` where `gnitstam`
is `pytools.generate_nonnegative_integer_tuples_summing_to_at_most`, a
generator that is not part of this repository.  Modelled from the spec:
`full_identifiers` are all dimension-length non-negative integer tuples
with total ≤ order, sorted ascending by total order with a fixed
deterministic tie-break; the tie-break reproduces the pytools generator
(the first axis varies fastest) and Python's stable sort. -/
def gnitstam (n : Nat) : Nat → List MultiIndex
  | 0 => [[]]
  | len + 1 =>
    (List.range (n + 1)).flatMap
      (fun i => (gnitstam (n - i) len).map (fun remainder => remainder ++ [i]))

/-- Stable insertion into a list sorted by total order. -/
def insertBySum (x : MultiIndex) : List MultiIndex → List MultiIndex
  | [] => [x]
  | y :: ys => if x.sum ≤ y.sum then x :: y :: ys else y :: insertBySum x ys

/-- Stable sort by total order (Python's `sorted(..., key=sum)`). -/
def sortBySum : List MultiIndex → List MultiIndex
  | [] => []
  | x :: xs => insertBySum x (sortBySum xs)

/-- `VolumeTaylorExpansionBase.get_full_coefficient_identifiers`. -/
def getFullCoefficientIdentifiers (order kdim : Nat) : List MultiIndex :=
  sortBySum (gnitstam order kdim)

/-! ## Multi-index derivative cache (`sumpy/tools.py`)

`MiDerivativeTaker` owns a dict `cache_by_mi` from multi-index to symbolic
expression.  The dict is embedded as an association list in insertion
order; Python dict assignment replaces in place when the key exists and
appends otherwise.  Symbolic expressions are values of an abstract type
`E`; the only operation `MiDerivativeTaker.diff` needs from them is
`expr.diff(var)`, a function `Nat → E → E` over the axis index of the
differentiation variable. -/

/-- An insertion-ordered dict keyed by multi-index. -/
abbrev Cache (E : Type) := List (MultiIndex × E)

/-- Dict lookup (first, and with unique keys only, occurrence). -/
def lookupMi {E : Type} (c : Cache E) (mi : MultiIndex) : Option E :=
  match c with
  | [] => none
  | (k, v) :: rest => if k = mi then some v else lookupMi rest mi

/-- Dict assignment `cache[k] = v`: replace in place when present, append
otherwise. -/
def dictSet {E : Type} (c : Cache E) (k : MultiIndex) (v : E) : Cache E :=
  match c with
  | [] => [(k, v)]
  | (k1, v1) :: rest =>
      if k1 = k then (k1, v) :: rest else (k1, v1) :: dictSet rest k v

/-- The dict keys, in insertion order. -/
def cacheKeys {E : Type} (c : Cache E) : List MultiIndex := c.map Prod.fst

/-- `MiDerivativeTaker`: the list of differentiation variables is
represented by its length `varCount` (variables are addressed by axis
index). -/
structure MiDerivativeTaker (E : Type) where
  varCount : Nat
  cacheByMi : Cache E
deriving DecidableEq, Repr

/-- `MiDerivativeTaker.__init__`: the cache is seeded with the zero
multi-index mapped to the base expression. -/
def mkMiDerivativeTaker {E : Type} (expr : E) (varCount : Nat) :
    MiDerivativeTaker E :=
  ⟨varCount, [(List.replicate varCount 0, expr)]⟩

/-- `mi_dist(a, b)`: the componentwise integer difference, summed
(the uses below always sum it). -/
def miDist (a b : MultiIndex) : Int :=
  (List.zipWith (fun (x y : Nat) => (x : Int) - (y : Int)) a b).sum

/-- `(np.array(mi) >= np.array(other_mi)).all()`. -/
def dominatesB (mi other : MultiIndex) : Bool :=
  (List.zip mi other).all (fun p => p.2 ≤ p.1)

/-- Python `min(l, key=f)`: the first element attaining the minimal key,
`none` standing for the `ValueError` on an empty iterable. -/
def pyMinBy {α : Type} (f : α → Int) : List α → Option α
  | [] => none
  | x :: xs => some (xs.foldl (fun best y => if f y < f best then y else best) x)

/-- `MiDerivativeTaker.get_closest_cached_mi`: among the cached keys
dominated by `mi`, the one of minimal summed distance. -/
def getClosestCachedMi {E : Type} (t : MiDerivativeTaker E) (mi : MultiIndex) :
    Option MultiIndex :=
  pyMinBy (fun otherMi => miDist mi otherMi)
    ((cacheKeys t.cacheByMi).filter (fun otherMi => dominatesB mi otherMi))

/-- The steps of `get_derivative_taking_sequence` along one axis: `cnt`
single increments of component `idx`, each paired with the axis of the
variable being differentiated. -/
def axisSteps (cur : MultiIndex) (idx : Nat) : Nat → List (Nat × MultiIndex)
  | 0 => []
  | cnt + 1 =>
    let cur1 := cur.set idx (cur.getD idx 0 + 1)
    (idx, cur1) :: axisSteps cur1 idx cnt

/-- `get_derivative_taking_sequence(start_mi, end_mi)` from axis `idx` on,
with `fuel` axes left to process: for each axis in increasing order, step
the current multi-index up to the target component (no steps when the
difference is not positive, matching `range(1, 1 + mi_i)`). -/
def dtsFrom (target : MultiIndex) (cur : MultiIndex) (idx : Nat) :
    Nat → List (Nat × MultiIndex)
  | 0 => []
  | fuel + 1 =>
    axisSteps cur idx (target.getD idx 0 - cur.getD idx 0) ++
      dtsFrom target
        (cur.set idx (cur.getD idx 0 + (target.getD idx 0 - cur.getD idx 0)))
        (idx + 1) fuel

/-- `MiDerivativeTaker.get_derivative_taking_sequence`: the axes iterated
are those of the variable list, `0` to `n - 1`. -/
def getDerivativeTakingSequence (n : Nat) (startMi endMi : MultiIndex) :
    List (Nat × MultiIndex) :=
  dtsFrom endMi startMi 0 n

/-- One step of the walk in `MiDerivativeTaker.diff`:
`expr = expr.diff(next_deriv); self.cache_by_mi[next_mi] = expr`. -/
def plainWalkStep {E : Type} (dOp : Nat → E → E) (p : E × Cache E)
    (step : Nat × MultiIndex) : E × Cache E :=
  (dOp step.1 p.1, dictSet p.2 step.2 (dOp step.1 p.1))

/-- `MiDerivativeTaker.diff(mi)`: return the cached expression, or walk
from the closest cached multi-index, differentiating once per step and
caching every intermediate expression.  Returns the expression and the
updated taker; `none` stands for the error raised when the closest-cached
search finds no candidate. -/
def takerDiff {E : Type} (dOp : Nat → E → E) (t : MiDerivativeTaker E)
    (mi : MultiIndex) : Option (E × MiDerivativeTaker E) :=
  match lookupMi t.cacheByMi mi with
  | some expr => some (expr, t)
  | none =>
    match getClosestCachedMi t mi with
    | none => none
    | some currentMi =>
      match lookupMi t.cacheByMi currentMi with
      | none => none
      | some expr0 =>
        let res := (getDerivativeTakingSequence t.varCount currentMi mi).foldl
          (plainWalkStep dOp) (expr0, t.cacheByMi)
        some (res.1, ⟨t.varCount, res.2⟩)

/-! ### Recurrence-aware variant (`LinearRecurrenceBasedMiDerivativeTaker`)

The wrangler consulted by `diff` (`self.wrangler.
try_get_recurrence_for_derivative(next_mi, self.cache_by_mi)`) lives
outside this repository's sources; it is abstracted as an oracle that
receives the intermediate multi-index and the current cache and returns
`None` or a mapping from cached multi-indices to coefficients (the
`iteritems(recurrence)` of the source).  The symbolic operations used are
`expr.diff(var)`, `coeff * expr`, and `Add(*...)`. -/

/-- The symbolic-engine operations `LinearRecurrenceBasedMiDerivativeTaker`
uses, over coefficients `C` and expressions `E`. -/
structure SymEngine (C E : Type) where
  derivOp : Nat → E → E
  scale : C → E → E
  addMany : List E → E

/-- One step of the recurrence-aware walk: ask the oracle about the new
intermediate multi-index; on a relation, form
`Add(*(coeff * cache_by_mi[ident] ...))` (a missing `ident` is the
`KeyError` the source would raise, rendered as `none`); otherwise
differentiate the running expression once. -/
def lrStep {C E : Type} (eng : SymEngine C E)
    (oracle : MultiIndex → Cache E → Option (List (MultiIndex × C)))
    (cache : Cache E) (expr : E) (nextDeriv : Nat) (nextMi : MultiIndex) :
    Option E :=
  match oracle nextMi cache with
  | some recurrence =>
      (recurrence.mapM
        (fun ic => (lookupMi cache ic.1).map (fun v => eng.scale ic.2 v))).map
        eng.addMany
  | none => some (eng.derivOp nextDeriv expr)

/-- One step of the recurrence-aware walk, together with the caching of
its result at the new intermediate multi-index. -/
def lrWalkStep {C E : Type} (eng : SymEngine C E)
    (oracle : MultiIndex → Cache E → Option (List (MultiIndex × C)))
    (p : E × Cache E) (step : Nat × MultiIndex) : Option (E × Cache E) := do
  let expr1 ← lrStep eng oracle p.2 p.1 step.1 step.2
  pure (expr1, dictSet p.2 step.2 expr1)

/-- `LinearRecurrenceBasedMiDerivativeTaker.diff(mi)`. -/
def lrDiff {C E : Type} (eng : SymEngine C E)
    (oracle : MultiIndex → Cache E → Option (List (MultiIndex × C)))
    (t : MiDerivativeTaker E) (mi : MultiIndex) :
    Option (E × MiDerivativeTaker E) :=
  match lookupMi t.cacheByMi mi with
  | some expr => some (expr, t)
  | none =>
    match getClosestCachedMi t mi with
    | none => none
    | some closestMi =>
      match lookupMi t.cacheByMi closestMi with
      | none => none
      | some expr0 => do
        let res ← (getDerivativeTakingSequence t.varCount closestMi mi).foldlM
          (lrWalkStep eng oracle) (expr0, t.cacheByMi)
        pure (res.1, ⟨t.varCount, res.2⟩)

/-! ## Theorems -/

/-- The normal-form value of a `get_scaling` result. -/
def scalValue : Except String SymScal → Option GaussPi
  | .ok e => evalScal e
  | .error _ => none

theorem sameVariantArgs_refl (k : KernelI) : sameVariantArgs k k = true := by
  induction k with
  | laplace i d => simp [sameVariantArgs]
  | helmholtz i d n e => simp [sameVariantArgs]
  | difference i p m ihp ihm => simp [sameVariantArgs, ihp, ihm]
  | axisTargetDerivative i a k ih => simp [sameVariantArgs, ih]
  | directionalTargetDerivative i k ih => simp [sameVariantArgs, ih]
  | directionalSourceDerivative i k ih => simp [sameVariantArgs, ih]

theorem objId_getBaseKernel_mem (k : KernelI) :
    k.getBaseKernel.objId ∈ k.idList := by
  induction k with
  | laplace i d => simp [KernelI.getBaseKernel, KernelI.idList, KernelI.objId]
  | helmholtz i d n e =>
      simp [KernelI.getBaseKernel, KernelI.idList, KernelI.objId]
  | difference i p m ihp ihm =>
      simp [KernelI.getBaseKernel, KernelI.idList, KernelI.objId]
  | axisTargetDerivative i a k ih =>
      simp [KernelI.getBaseKernel, KernelI.idList]
      exact Or.inr ih
  | directionalTargetDerivative i k ih =>
      simp [KernelI.getBaseKernel, KernelI.idList]
      exact Or.inr ih
  | directionalSourceDerivative i k ih =>
      simp [KernelI.getBaseKernel, KernelI.idList]
      exact Or.inr ih

theorem pyIs_getBaseKernel_iff (k : KernelI) (hw : k.idList.Nodup) :
    pyIs k.getBaseKernel k = true ↔ k.isWrapper = false := by
  cases k with
  | laplace i d => simp [pyIs, KernelI.getBaseKernel, KernelI.isWrapper]
  | helmholtz i d n e => simp [pyIs, KernelI.getBaseKernel, KernelI.isWrapper]
  | difference i p m => simp [pyIs, KernelI.getBaseKernel, KernelI.isWrapper]
  | axisTargetDerivative i a k =>
      have hmem := objId_getBaseKernel_mem k
      have hnotin : i ∉ k.idList := by
        have := hw
        simp [KernelI.idList] at this
        exact this.1
      constructor
      · intro h
        exfalso
        have : k.getBaseKernel.objId = i := by
          simpa [pyIs, KernelI.getBaseKernel, KernelI.objId] using h
        exact hnotin (this ▸ hmem)
      · intro h
        simp [KernelI.isWrapper] at h
  | directionalTargetDerivative i k =>
      have hmem := objId_getBaseKernel_mem k
      have hnotin : i ∉ k.idList := by
        have := hw
        simp [KernelI.idList] at this
        exact this.1
      constructor
      · intro h
        exfalso
        have : k.getBaseKernel.objId = i := by
          simpa [pyIs, KernelI.getBaseKernel, KernelI.objId] using h
        exact hnotin (this ▸ hmem)
      · intro h
        simp [KernelI.isWrapper] at h
  | directionalSourceDerivative i k =>
      have hmem := objId_getBaseKernel_mem k
      have hnotin : i ∉ k.idList := by
        have := hw
        simp [KernelI.idList] at this
        exact this.1
      constructor
      · intro h
        exfalso
        have : k.getBaseKernel.objId = i := by
          simpa [pyIs, KernelI.getBaseKernel, KernelI.objId] using h
        exact hnotin (this ▸ hmem)
      · intro h
        simp [KernelI.isWrapper] at h

/-- C8: `get_scaling` returns `-1/(2*pi)` for Laplace in dimension 2,
`1/(4*pi)` for Laplace in dimension 3, `i/4` for Helmholtz in dimension 2,
`1/(4*pi)` for Helmholtz in dimension 3, and fails with the
unsupported-dimension error for every other (or unset) dimension.
The constants are compared as normal forms `(re + im*i)*pi^p`:
`-1/(2*pi) = (-1/2)*pi^(-1)`, `1/(4*pi) = (1/4)*pi^(-1)`,
`i/4 = (0 + (1/4)*i)*pi^0`. -/
theorem c8_get_scaling :
    scalValue (laplaceGetScaling (some 2)) = some ⟨-(1/2 : ℚ), 0, -1⟩ ∧
    scalValue (laplaceGetScaling (some 3)) = some ⟨(1/4 : ℚ), 0, -1⟩ ∧
    scalValue (helmholtzGetScaling (some 2)) = some ⟨0, (1/4 : ℚ), 0⟩ ∧
    scalValue (helmholtzGetScaling (some 3)) = some ⟨(1/4 : ℚ), 0, -1⟩ ∧
    (∀ d : Option Nat, d ≠ some 2 → d ≠ some 3 →
      laplaceGetScaling d = .error "unsupported dimensionality" ∧
      helmholtzGetScaling d = .error "unsupported dimensionality") := by
  refine ⟨?_, ?_, ?_, ?_, ?_⟩
  · norm_num [scalValue, laplaceGetScaling, evalScal, GaussPi.mul, GaussPi.inv]
  · norm_num [scalValue, laplaceGetScaling, evalScal, GaussPi.mul, GaussPi.inv]
  · norm_num [scalValue, helmholtzGetScaling, evalScal, GaussPi.mul, GaussPi.inv]
  · norm_num [scalValue, helmholtzGetScaling, evalScal, GaussPi.mul, GaussPi.inv]
  intro d h2 h3
  constructor
  · simp [laplaceGetScaling, h2, h3]
  · simp [helmholtzGetScaling, h2, h3]

/-- Witness for C8: the error branch at a concrete unset dimension and at
the concrete unsupported dimension 7. -/
theorem c8_get_scaling_witness :
    laplaceGetScaling none = .error "unsupported dimensionality" ∧
    helmholtzGetScaling (some 7) = .error "unsupported dimensionality" :=
  ⟨(c8_get_scaling.2.2.2.2 none (by decide) (by decide)).1,
   (c8_get_scaling.2.2.2.2 (some 7) (by decide) (by decide)).2⟩

/-- C9: `DifferenceKernel` construction succeeds exactly when both
operands are their own base kernel (the `is`-check of the source) — a
structural property equivalent, on well-formed instance trees, to not
being a derivative wrapper — and their `dimensions` agree; on success the
difference kernel's `dimensions` equals the shared operand dimension. -/
theorem c9_difference_kernel (freshId : Nat) (p m : KernelI)
    (hp : p.idList.Nodup) (hm : m.idList.Nodup) :
    ((mkDifferenceKernel freshId p m).isOk = true ↔
      (p.isWrapper = false ∧ m.isWrapper = false ∧
        p.dimensions = m.dimensions)) ∧
    (∀ r, mkDifferenceKernel freshId p m = .ok r →
      r.dimensions = p.dimensions ∧ r.dimensions = m.dimensions) := by
  have hpiff := pyIs_getBaseKernel_iff p hp
  have hmiff := pyIs_getBaseKernel_iff m hm
  unfold mkDifferenceKernel
  by_cases hpw : pyIs p.getBaseKernel p = true
  · by_cases hmw : pyIs m.getBaseKernel m = true
    · simp only [hpw, hmw, Bool.true_eq_false, or_self, if_false]
      by_cases hdim : p.dimensions = m.dimensions
      · simp only [bne_eq_false_iff_eq] at *
        simp [hdim, hpiff.mp hpw, hmiff.mp hmw, Except.isOk, Except.toBool,
          KernelI.dimensions]
      · have : (p.dimensions != m.dimensions) = true := by
          simpa [bne_iff_ne] using hdim
        simp [this, Except.isOk, Except.toBool, hdim]
    · have hmw2 : pyIs m.getBaseKernel m = false := by
        cases h : pyIs m.getBaseKernel m with
        | true => exact absurd h hmw
        | false => rfl
      have : m.isWrapper = true := by
        cases h : m.isWrapper with
        | false => exact absurd (hmiff.mpr h) hmw
        | true => rfl
      simp [hmw2, Except.isOk, Except.toBool, this]
  · have hpw2 : pyIs p.getBaseKernel p = false := by
      cases h : pyIs p.getBaseKernel p with
      | true => exact absurd h hpw
      | false => rfl
    have : p.isWrapper = true := by
      cases h : p.isWrapper with
      | false => exact absurd (hpiff.mpr h) hpw
      | true => rfl
    simp [hpw2, Except.isOk, Except.toBool, this]

/-- Witness for C9: two fresh base kernels of equal dimension combine
successfully. -/
theorem c9_difference_kernel_witness :
    (mkDifferenceKernel 5 (KernelI.laplace 0 (some 2))
      (KernelI.helmholtz 1 (some 2) "k" false)).isOk = true :=
  (c9_difference_kernel 5 (KernelI.laplace 0 (some 2))
      (KernelI.helmholtz 1 (some 2) "k" false)
      (by decide) (by decide)).1.mpr ⟨rfl, rfl, rfl⟩

/-- C4 counterexample: two separately constructed `LaplaceKernel(2)`
instances (distinct object ids 0 and 1) have the same variant and
constructor arguments, yet compare unequal and hash unequal, because
`Kernel` defines neither `__eq__` nor `__hash__` and Python falls back to
object identity. -/
theorem c4_counterexample :
    sameVariantArgs (KernelI.laplace 0 (some 2)) (KernelI.laplace 1 (some 2))
        = true ∧
    kernelEqPy (KernelI.laplace 0 (some 2)) (KernelI.laplace 1 (some 2))
        = false ∧
    pyHash (KernelI.laplace 0 (some 2)) ≠ pyHash (KernelI.laplace 1 (some 2))
    := by decide

/-- C4 (amended): kernel comparison is Python object identity — under the
Python invariant that a shared object id means the very same object, two
kernels compare equal iff they are the same instance; equality still
implies same variant, same constructor arguments and equal hashes, but
the converse fails (see the counterexample). -/
theorem c4_kernel_equality (k1 k2 : KernelI)
    (hids : k1.objId = k2.objId → k1 = k2) :
    (kernelEqPy k1 k2 = true ↔ k1 = k2) ∧
    (kernelEqPy k1 k2 = true →
      sameVariantArgs k1 k2 = true ∧ pyHash k1 = pyHash k2) := by
  have hiff : kernelEqPy k1 k2 = true ↔ k1.objId = k2.objId := by
    simp [kernelEqPy, pyIs]
  constructor
  · constructor
    · intro h
      exact hids (hiff.mp h)
    · intro h
      subst h
      exact hiff.mpr rfl
  · intro h
    have : k1 = k2 := hids (hiff.mp h)
    subst this
    exact ⟨sameVariantArgs_refl k1, rfl⟩

/-- Witness for C4 (amended): a kernel instance compares equal to itself
and is structurally equal to itself. -/
theorem c4_kernel_equality_witness :
    kernelEqPy (KernelI.laplace 0 (some 2)) (KernelI.laplace 0 (some 2))
        = true ∧
    sameVariantArgs (KernelI.laplace 0 (some 2)) (KernelI.laplace 0 (some 2))
        = true := by
  have h := c4_kernel_equality (KernelI.laplace 0 (some 2))
    (KernelI.laplace 0 (some 2)) (fun _ => rfl)
  exact ⟨h.1.mpr rfl, (h.2 (h.1.mpr rfl)).1⟩

/-- C3: for the Laplace-conforming expansion in dimension 2 at order 2,
the full identifiers are exactly `(0,0),(1,0),(0,1),(2,0),(1,1),(0,2)` (in
processing order); the stored identifiers exclude exactly `(0,2)` — the
one of `(2,0),(0,2)` processed second — and have length 5. -/
theorem c3_laplace_2d_order2 :
    getFullCoefficientIdentifiers 2 2
        = [[0, 0], [1, 0], [0, 1], [2, 0], [1, 1], [0, 2]] ∧
    (precomputeCoeffMatrix (R := Int)
        (fun d iso n => laplaceTryRecurrence 2 d iso n)
        (getFullCoefficientIdentifiers 2 2)).1
        = [[0, 0], [1, 0], [0, 1], [2, 0], [1, 1]] ∧
    (precomputeCoeffMatrix (R := Int)
        (fun d iso n => laplaceTryRecurrence 2 d iso n)
        (getFullCoefficientIdentifiers 2 2)).1.length = 5 := by
  refine ⟨by decide, by decide, by decide⟩

/-! ### C1: the Laplace recurrence oracle -/

theorem listIndex_eq_none_iff (l : List MultiIndex) (x : MultiIndex) :
    listIndex l x = none ↔ x ∉ l := by
  induction l with
  | nil => simp [listIndex]
  | cons y ys ih =>
      by_cases h : y = x
      · subst h
        simp [listIndex]
      · constructor
        · intro hn hc
          rcases List.mem_cons.mp hc with hc1 | hc1
          · exact h hc1.symm
          · simp only [listIndex, h, if_false, Option.map_eq_none'] at hn
            exact (ih.mp hn) hc1
        · intro hn
          simp only [listIndex, h, if_false, Option.map_eq_none']
          exact ih.mpr (fun hc => hn (List.mem_cons_of_mem _ hc))

theorem listIndex_eq_some (l : List MultiIndex) (x : MultiIndex) (i : Nat)
    (h : listIndex l x = some i) : i < l.length ∧ l.getD i [] = x := by
  induction l generalizing i with
  | nil => simp [listIndex] at h
  | cons y ys ih =>
      by_cases hyx : y = x
      · simp [listIndex, hyx] at h
        subst h
        simp [hyx]
      · simp [listIndex, hyx] at h
        obtain ⟨i1, hi1, hi⟩ := h
        obtain ⟨hlt, hget⟩ := ih i1 hi1
        subst hi
        refine ⟨by simpa using Nat.succ_lt_succ hlt, by simpa using hget⟩

theorem listIndex_nodup_iff (l : List MultiIndex) (x : MultiIndex) (i : Nat)
    (hnd : l.Nodup) (h : listIndex l x = some i) :
    ∀ j, j < l.length → (l.getD j [] = x ↔ j = i) := by
  induction l generalizing i with
  | nil => simp [listIndex] at h
  | cons y ys ih =>
      have hhead : y ∉ ys := by simp [List.nodup_cons] at hnd; exact hnd.1
      have htail : ys.Nodup := by simp [List.nodup_cons] at hnd; exact hnd.2
      by_cases hyx : y = x
      · simp [listIndex, hyx] at h
        subst h
        intro j hj
        cases j with
        | zero => simp [hyx]
        | succ j1 =>
            simp only [List.getD_cons_succ]
            constructor
            · intro hg
              exfalso
              have hj1 : j1 < ys.length := by simpa using hj
              have : ys.getD j1 [] ∈ ys := by
                have := List.getElem_mem (l := ys) (n := j1) (h := hj1)
                simpa [List.getD_eq_getElem?_getD,
                  List.getElem?_eq_getElem hj1] using this
              rw [hg, ← hyx] at this
              exact hhead this
            · intro hc
              exact absurd hc (by simp)
      · simp [listIndex, hyx] at h
        obtain ⟨i1, hi1, hi⟩ := h
        subst hi
        intro j hj
        cases j with
        | zero => simpa using fun h1 : y = x => hyx h1
        | succ j1 =>
            have hj1 : j1 < ys.length := by simpa using hj
            have := ih i1 htail hi1 j1 hj1
            simpa using this

theorem assignCoeffs_eq_none_iff (inTermsOf : List MultiIndex)
    (needed : List MultiIndex) (e : List Int) :
    assignCoeffs inTermsOf needed e = none ↔
      ∃ nd ∈ needed, nd ∉ inTermsOf := by
  induction needed generalizing e with
  | nil => simp [assignCoeffs]
  | cons nd rest ih =>
      cases hidx : listIndex inTermsOf nd with
      | none =>
          have hni : nd ∉ inTermsOf := (listIndex_eq_none_iff _ _).mp hidx
          constructor
          · intro _
            exact ⟨nd, List.mem_cons_self _ _, hni⟩
          · intro _
            simp [assignCoeffs, hidx]
      | some i =>
          have hmem : nd ∈ inTermsOf := by
            by_contra hc
            rw [(listIndex_eq_none_iff _ _).mpr hc] at hidx
            exact Option.noConfusion hidx
          constructor
          · intro hn
            simp only [assignCoeffs, hidx] at hn
            obtain ⟨x, hx, hxn⟩ := (ih _).mp hn
            exact ⟨x, List.mem_cons_of_mem _ hx, hxn⟩
          · rintro ⟨x, hx, hxn⟩
            rcases List.mem_cons.mp hx with rfl | hx1
            · exact absurd hmem hxn
            · simp only [assignCoeffs, hidx]
              exact (ih _).mpr ⟨x, hx1, hxn⟩

theorem assignCoeffs_some_spec (inTermsOf : List MultiIndex)
    (hnd : inTermsOf.Nodup) (ncoeffs : Nat)
    (hlen : inTermsOf.length ≤ ncoeffs) :
    ∀ (needed : List MultiIndex) (e v : List Int), e.length = ncoeffs →
      assignCoeffs inTermsOf needed e = some v →
      v.length = ncoeffs ∧
        ∀ i, i < ncoeffs → v.getD i 0 =
          (if i < inTermsOf.length ∧ inTermsOf.getD i [] ∈ needed then -1
           else e.getD i 0) := by
  intro needed
  induction needed with
  | nil =>
      intro e v he hv
      simp [assignCoeffs] at hv
      subst hv
      exact ⟨he, fun i _ => by simp⟩
  | cons nd rest ih =>
      intro e v he hv
      cases hidx : listIndex inTermsOf nd with
      | none => simp [assignCoeffs, hidx] at hv
      | some idx =>
          simp only [assignCoeffs, hidx] at hv
          obtain ⟨hidxlt, hidxget⟩ := listIndex_eq_some _ _ _ hidx
          have hiff := listIndex_nodup_iff _ _ _ hnd hidx
          have he' : (e.set idx (-1)).length = ncoeffs := by simpa using he
          obtain ⟨hvl, hvget⟩ := ih (e.set idx (-1)) v he' hv
          refine ⟨hvl, fun i hi => ?_⟩
          have hset : (e.set idx (-1)).getD i 0 =
              (if i = idx then -1 else e.getD i 0) := by
            by_cases hii : i = idx
            · subst hii
              have hie : i < e.length := by omega
              rw [if_pos rfl]
              simp [List.getD_eq_getElem?_getD, List.getElem?_set_self hie]
            · rw [if_neg hii]
              simp [List.getD_eq_getElem?_getD,
                List.getElem?_set_ne (fun h => hii h.symm)]
          rw [hvget i hi, hset]
          by_cases hrest : i < inTermsOf.length ∧ inTermsOf.getD i [] ∈ rest
          · rw [if_pos hrest,
              if_pos ⟨hrest.1, List.mem_cons_of_mem _ hrest.2⟩]
          · rw [if_neg hrest]
            by_cases hii : i = idx
            · subst hii
              rw [if_pos rfl, if_pos ⟨hidxlt, by
                rw [hidxget]; exact List.mem_cons_self _ _⟩]
            · rw [if_neg hii]
              have hnotc : ¬(i < inTermsOf.length ∧
                  inTermsOf.getD i [] ∈ nd :: rest) := by
                rintro ⟨hilt, hmemc⟩
                rcases List.mem_cons.mp hmemc with hh | hh
                · exact hii ((hiff i hilt).mp hh)
                · exact hrest ⟨hilt, hh⟩
              rw [if_neg hnotc]

theorem findSome?_eq_none_of_all {α β : Type} (f : α → Option β)
    (l : List α) (h : ∀ x ∈ l, f x = none) : l.findSome? f = none := by
  induction l with
  | nil => simp
  | cons x xs ih =>
      rw [List.findSome?_cons]
      rw [h x (List.mem_cons_self _ _)]
      exact ih (fun y hy => h y (List.mem_cons_of_mem _ hy))

theorem findSome?_first_of_pairwise {β : Type} (f : Nat → Option β)
    (l : List Nat) (hp : l.Pairwise (· < ·)) (k0 : Nat) (v : β)
    (hk : k0 ∈ l) (hv : f k0 = some v)
    (hnone : ∀ k ∈ l, k < k0 → f k = none) : l.findSome? f = some v := by
  induction l with
  | nil => simp at hk
  | cons x xs ih =>
      rcases List.mem_cons.mp hk with rfl | hk1
      · rw [List.findSome?_cons, hv]
      · have hx : x < k0 := (List.pairwise_cons.mp hp).1 k0 hk1
        rw [List.findSome?_cons, hnone x (List.mem_cons_self _ _) hx]
        exact ih (List.pairwise_cons.mp hp).2 hk1
          (fun k hkk => hnone k (List.mem_cons_of_mem _ hkk))

/-- C1: the Laplace recurrence oracle tries the axes with entry at least 2
in increasing order; if for no such axis all needed multi-indices occur in
`identifiers_so_far` it returns no relation, and for the first axis where
they all occur it returns the row with coefficient `-1` at the position of
each needed multi-index and `0` elsewhere. -/
theorem c1_laplace_try_recurrence (kdim : Nat) (deriv : MultiIndex)
    (inTermsOf : List MultiIndex) (ncoeffs : Nat)
    (hnd : inTermsOf.Nodup) (hlen : inTermsOf.length ≤ ncoeffs) :
    ((∀ k, k < deriv.length → 2 ≤ deriv.getD k 0 →
        ∃ nd ∈ neededList kdim deriv k, nd ∉ inTermsOf) →
      laplaceTryRecurrence kdim deriv inTermsOf ncoeffs = none) ∧
    (∀ k0, k0 < deriv.length → 2 ≤ deriv.getD k0 0 →
      (∀ nd ∈ neededList kdim deriv k0, nd ∈ inTermsOf) →
      (∀ k, k < k0 → 2 ≤ deriv.getD k 0 →
        ∃ nd ∈ neededList kdim deriv k, nd ∉ inTermsOf) →
      ∃ v, laplaceTryRecurrence kdim deriv inTermsOf ncoeffs = some v ∧
        v.length = ncoeffs ∧
        ∀ i, i < ncoeffs → v.getD i 0 =
          (if i < inTermsOf.length ∧
              inTermsOf.getD i [] ∈ neededList kdim deriv k0 then -1
           else 0)) := by
  constructor
  · intro hall
    apply findSome?_eq_none_of_all
    intro k hkmem
    have hk := List.mem_filter.mp hkmem
    have hklt : k < deriv.length := List.mem_range.mp hk.1
    have hk2 : 2 ≤ deriv.getD k 0 := by simpa using hk.2
    exact (assignCoeffs_eq_none_iff _ _ _).mpr (hall k hklt hk2)
  · intro k0 hk0lt hk02 hallmem hprev
    have hmem : k0 ∈ (List.range deriv.length).filter
        (fun dim => 2 ≤ deriv.getD dim 0) :=
      List.mem_filter.mpr ⟨List.mem_range.mpr hk0lt, by simpa using hk02⟩
    have hnotnone : assignCoeffs inTermsOf (neededList kdim deriv k0)
        (List.replicate ncoeffs 0) ≠ none := by
      rw [Ne, assignCoeffs_eq_none_iff]
      rintro ⟨nd, hnd1, hnd2⟩
      exact hnd2 (hallmem nd hnd1)
    cases hv : assignCoeffs inTermsOf (neededList kdim deriv k0)
        (List.replicate ncoeffs 0) with
    | none => exact absurd hv hnotnone
    | some v =>
        refine ⟨v, ?_, ?_⟩
        · apply findSome?_first_of_pairwise _ _
            ((List.pairwise_lt_range deriv.length).filter _) k0 v hmem hv
          intro k hkmem hklt
          have hk := List.mem_filter.mp hkmem
          have hk2 : 2 ≤ deriv.getD k 0 := by simpa using hk.2
          exact (assignCoeffs_eq_none_iff _ _ _).mpr (hprev k hklt hk2)
        · obtain ⟨hvl, hvget⟩ := assignCoeffs_some_spec inTermsOf hnd
            ncoeffs hlen (neededList kdim deriv k0)
            (List.replicate ncoeffs 0) v (by simp) hv
          refine ⟨hvl, fun i hi => ?_⟩
          rw [hvget i hi]
          by_cases hc : i < inTermsOf.length ∧
              inTermsOf.getD i [] ∈ neededList kdim deriv k0
          · simp [hc]
          · simp [hc]

/-- Witness for C1: reducing the derivative `(0,2)` of the Laplace 2D
expansion against the processed prefix `(0,0),(1,0),(0,1),(2,0)` succeeds
on axis 1 and yields coefficient `-1` exactly at the position of the
needed multi-index `(2,0)`. -/
theorem c1_laplace_try_recurrence_witness :
    ∃ v, laplaceTryRecurrence 2 [0, 2] [[0, 0], [1, 0], [0, 1], [2, 0]] 6
        = some v ∧ v.length = 6 ∧
      ∀ i, i < 6 → v.getD i 0 =
        (if i < ([[0, 0], [1, 0], [0, 1], [2, 0]] :
              List MultiIndex).length ∧
            ([[0, 0], [1, 0], [0, 1], [2, 0]] : List MultiIndex).getD i []
              ∈ neededList 2 [0, 2] 1 then -1
         else 0) :=
  (c1_laplace_try_recurrence 2 [0, 2] [[0, 0], [1, 0], [0, 1], [2, 0]] 6
      (by decide) (by decide)).2 1 (by decide) (by decide)
    (by decide) (by decide)

/-! ### C5: shape and identity rows of the reduction matrix -/

theorem length_unitRow (n i : Nat) : (unitRow (R := R) n i).length = n := by
  simp [unitRow]

theorem length_dotRow (matrix : List (List R)) (e : List R) (n : Nat) :
    (dotRow matrix e n).length = n := by
  simp [dotRow]

theorem pcStep_of_none {oracle : MultiIndex → List MultiIndex → Nat → Option (List R)}
    {ncoeffs : Nat} {st : PCState R} {id0 : MultiIndex}
    (h : oracle id0 st.soFar ncoeffs = none) :
    pcStep oracle ncoeffs st id0 =
      ⟨st.stored ++ [id0], st.soFar ++ [id0],
        st.matrix ++ [unitRow ncoeffs st.stored.length]⟩ := by
  simp [pcStep, h]

theorem pcStep_of_some {oracle : MultiIndex → List MultiIndex → Nat → Option (List R)}
    {ncoeffs : Nat} {st : PCState R} {id0 : MultiIndex} {e : List R}
    (h : oracle id0 st.soFar ncoeffs = some e) :
    pcStep oracle ncoeffs st id0 =
      ⟨st.stored, st.soFar ++ [id0],
        st.matrix ++ [dotRow st.matrix e ncoeffs]⟩ := by
  simp [pcStep, h]

theorem pcStep_parts (oracle : MultiIndex → List MultiIndex → Nat → Option (List R))
    (ncoeffs : Nat) (st : PCState R) (id0 : MultiIndex) :
    (pcStep oracle ncoeffs st id0).soFar = st.soFar ++ [id0] ∧
    (∃ row, (pcStep oracle ncoeffs st id0).matrix = st.matrix ++ [row] ∧
      row.length = ncoeffs) ∧
    (∃ ext, (pcStep oracle ncoeffs st id0).stored = st.stored ++ ext) := by
  cases h : oracle id0 st.soFar ncoeffs with
  | none =>
      rw [pcStep_of_none h]
      exact ⟨rfl, ⟨_, rfl, length_unitRow _ _⟩, ⟨[id0], rfl⟩⟩
  | some e =>
      rw [pcStep_of_some h]
      exact ⟨rfl, ⟨_, rfl, length_dotRow _ _ _⟩, ⟨[], by simp⟩⟩

theorem pcRun_append (oracle : MultiIndex → List MultiIndex → Nat → Option (List R))
    (ncoeffs : Nat) (st : PCState R) (l1 l2 : List MultiIndex) :
    pcRun oracle ncoeffs st (l1 ++ l2) =
      pcRun oracle ncoeffs (pcRun oracle ncoeffs st l1) l2 := by
  simp [pcRun, List.foldl_append]

theorem pcRun_parts (oracle : MultiIndex → List MultiIndex → Nat → Option (List R))
    (ncoeffs : Nat) :
    ∀ (ids : List MultiIndex) (st : PCState R),
    (pcRun oracle ncoeffs st ids).soFar = st.soFar ++ ids ∧
    (pcRun oracle ncoeffs st ids).matrix.length
        = st.matrix.length + ids.length ∧
    (∃ ext, (pcRun oracle ncoeffs st ids).matrix = st.matrix ++ ext) ∧
    (∃ ext, (pcRun oracle ncoeffs st ids).stored = st.stored ++ ext) ∧
    (pcRun oracle ncoeffs st ids).stored.length
        ≤ st.stored.length + ids.length ∧
    ((∀ r ∈ st.matrix, r.length = ncoeffs) →
      ∀ r ∈ (pcRun oracle ncoeffs st ids).matrix, r.length = ncoeffs) := by
  intro ids
  induction ids with
  | nil => intro st; simp [pcRun]
  | cons id0 rest ih =>
      intro st
      have hstep := pcStep_parts oracle ncoeffs st id0
      obtain ⟨hsf, ⟨row, hmat, hrow⟩, ⟨ext1, hstored⟩⟩ := hstep
      have hrun : pcRun oracle ncoeffs st (id0 :: rest)
          = pcRun oracle ncoeffs (pcStep oracle ncoeffs st id0) rest := rfl
      obtain ⟨ih1, ih2, ⟨ext2, ih3⟩, ⟨ext3, ih4⟩, ih5, ih6⟩ :=
        ih (pcStep oracle ncoeffs st id0)
      refine ⟨?_, ?_, ?_, ?_, ?_, ?_⟩
      · rw [hrun, ih1, hsf]
        simp
      · rw [hrun, ih2, hmat]
        simp [Nat.add_assoc, Nat.add_comm 1 rest.length]
      · rw [hrun, ih3, hmat]
        exact ⟨row :: ext2, by simp⟩
      · rw [hrun, ih4, hstored]
        exact ⟨ext1 ++ ext3, by simp⟩
      · rw [hrun]
        refine le_trans ih5 ?_
        have : (pcStep oracle ncoeffs st id0).stored.length
            ≤ st.stored.length + 1 := by
          cases h : oracle id0 st.soFar ncoeffs with
          | none => rw [pcStep_of_none h]; simp
          | some e => rw [pcStep_of_some h]; simp
        simp only [List.length_cons]
        omega
      · intro hall
        rw [hrun]
        apply ih6
        intro r hr
        rw [hmat] at hr
        rcases List.mem_append.mp hr with hr1 | hr1
        · exact hall r hr1
        · rw [List.mem_singleton.mp hr1]
          exact hrow

theorem pcRun_stored_count (oracle : MultiIndex → List MultiIndex → Nat → Option (List R))
    (ncoeffs : Nat) (fullIds : List MultiIndex) :
    ∀ p, p ≤ fullIds.length →
      (pcRun oracle ncoeffs ⟨[], [], []⟩ (fullIds.take p)).stored.length =
        ((List.range p).filter
          (fun q => (oracle (fullIds.getD q []) (fullIds.take q)
            ncoeffs).isNone)).length := by
  intro p
  induction p with
  | zero => intro _; simp [pcRun]
  | succ p ih =>
      intro hp
      have hplt : p < fullIds.length := by omega
      have hsome : fullIds[p]? = some (fullIds.getD p []) := by
        rw [List.getElem?_eq_getElem hplt]
        simp [List.getD_eq_getElem?_getD, List.getElem?_eq_getElem hplt]
      have htake : fullIds.take (p + 1)
          = fullIds.take p ++ [fullIds.getD p []] := by
        rw [List.take_succ, hsome]
        rfl
      have hsofar : (pcRun oracle ncoeffs ⟨[], [], []⟩
          (fullIds.take p)).soFar = fullIds.take p := by
        have := (pcRun_parts oracle ncoeffs (fullIds.take p) ⟨[], [], []⟩).1
        simpa using this
      rw [htake, pcRun_append]
      rw [List.range_succ, List.filter_append]
      have hsingle : pcRun oracle ncoeffs
          (pcRun oracle ncoeffs ⟨[], [], []⟩ (fullIds.take p))
          [fullIds.getD p []]
          = pcStep oracle ncoeffs
            (pcRun oracle ncoeffs ⟨[], [], []⟩ (fullIds.take p))
            (fullIds.getD p []) := rfl
      rw [hsingle]
      cases h : oracle (fullIds.getD p []) (fullIds.take p) ncoeffs with
      | none =>
          have hstep : oracle (fullIds.getD p [])
              (pcRun oracle ncoeffs ⟨[], [], []⟩ (fullIds.take p)).soFar
              ncoeffs = none := by rw [hsofar]; exact h
          rw [pcStep_of_none hstep]
          have h' : oracle (fullIds[p]?.getD []) (List.take p fullIds)
              ncoeffs = none := by
            rw [hsome]
            exact h
          have hfil : List.filter
              (fun q => (oracle (fullIds.getD q []) (fullIds.take q)
                ncoeffs).isNone) [p] = [p] := by
            simp [h']
          rw [hfil]
          simp [ih (by omega)]
      | some e =>
          have hstep : oracle (fullIds.getD p [])
              (pcRun oracle ncoeffs ⟨[], [], []⟩ (fullIds.take p)).soFar
              ncoeffs = some e := by rw [hsofar]; exact h
          rw [pcStep_of_some hstep]
          have h' : oracle (fullIds[p]?.getD []) (List.take p fullIds)
              ncoeffs = some e := by
            rw [hsome]
            exact h
          have hfil : List.filter
              (fun q => (oracle (fullIds.getD q []) (fullIds.take q)
                ncoeffs).isNone) [p] = [] := by
            simp [h']
          rw [hfil]
          simp [ih (by omega)]

theorem filter_range_getD (q : Nat → Bool) :
    ∀ (n i : Nat), i < ((List.range n).filter q).length →
      q (((List.range n).filter q).getD i 0) = true ∧
      ((List.range (((List.range n).filter q).getD i 0)).filter q).length
          = i ∧
      ((List.range n).filter q).getD i 0 < n := by
  intro n
  induction n with
  | zero => intro i hi; simp at hi
  | succ n ih =>
      intro i hi
      rw [List.range_succ, List.filter_append] at hi ⊢
      cases hq : q n with
      | false =>
          have : (List.filter q [n]) = [] := by simp [hq]
          rw [this] at hi ⊢
          simp only [List.append_nil] at hi ⊢
          obtain ⟨h1, h2, h3⟩ := ih i hi
          exact ⟨h1, h2, by omega⟩
      | true =>
          have hsing : (List.filter q [n]) = [n] := by simp [hq]
          rw [hsing] at hi ⊢
          by_cases hilt : i < ((List.range n).filter q).length
          · have hgetD : (((List.range n).filter q) ++ [n]).getD i 0
                = ((List.range n).filter q).getD i 0 := by
              simp [List.getD_eq_getElem?_getD,
                List.getElem?_append_left hilt]
            rw [hgetD]
            obtain ⟨h1, h2, h3⟩ := ih i hilt
            exact ⟨h1, h2, by omega⟩
          · have hlen : i = ((List.range n).filter q).length := by
              simp at hi
              omega
            have hgetD : (((List.range n).filter q) ++ [n]).getD i 0 = n := by
              rw [List.getD_eq_getElem?_getD,
                List.getElem?_append_right (by omega)]
              rw [hlen]
              simp
            rw [hgetD]
            exact ⟨hq, by rw [← hlen], by omega⟩

theorem take_unitRow (nc ncols i : Nat) (h : ncols ≤ nc) :
    (unitRow (R := R) nc i).take ncols = unitRow ncols i := by
  apply List.ext_getElem?
  intro j
  by_cases hj : j < ncols
  · rw [List.getElem?_take_of_lt hj]
    have hjnc : j < nc := by omega
    simp [unitRow, List.getElem?_range hjnc, List.getElem?_range hj]
  · rw [List.getElem?_take_eq_none (by omega)]
    symm
    apply List.getElem?_eq_none
    rw [length_unitRow]
    omega

theorem pcRun_unit_row_at
    (oracle : MultiIndex → List MultiIndex → Nat → Option (List R))
    (fullIds : List MultiIndex) (i p : Nat) (hplt : p < fullIds.length)
    (hor : oracle (fullIds.getD p []) (fullIds.take p) fullIds.length
      = none)
    (hcnt : (pcRun oracle fullIds.length ⟨[], [], []⟩
      (fullIds.take p)).stored.length = i) :
    (pcRun oracle fullIds.length ⟨[], [], []⟩ fullIds).matrix.getD p []
      = unitRow fullIds.length i := by
  have hsome : fullIds[p]? = some (fullIds.getD p []) := by
    rw [List.getElem?_eq_getElem hplt]
    simp [List.getD_eq_getElem?_getD, List.getElem?_eq_getElem hplt]
  have htake : fullIds.take (p + 1)
      = fullIds.take p ++ [fullIds.getD p []] := by
    rw [List.take_succ, hsome]
    rfl
  have hsofar : (pcRun oracle fullIds.length ⟨[], [], []⟩
      (fullIds.take p)).soFar = fullIds.take p := by
    simpa using
      (pcRun_parts oracle fullIds.length (fullIds.take p) ⟨[], [], []⟩).1
  have hstep : oracle (fullIds.getD p [])
      (pcRun oracle fullIds.length ⟨[], [], []⟩ (fullIds.take p)).soFar
      fullIds.length = none := by
    rw [hsofar]
    exact hor
  have hmat1 : (pcRun oracle fullIds.length ⟨[], [], []⟩
        (fullIds.take (p + 1))).matrix
      = (pcRun oracle fullIds.length ⟨[], [], []⟩
          (fullIds.take p)).matrix ++ [unitRow fullIds.length i] := by
    rw [htake, pcRun_append]
    show (pcStep oracle fullIds.length
      (pcRun oracle fullIds.length ⟨[], [], []⟩ (fullIds.take p))
      (fullIds.getD p [])).matrix = _
    rw [pcStep_of_none hstep, hcnt]
  obtain ⟨ext, hext⟩ :=
    (pcRun_parts oracle fullIds.length (fullIds.drop (p + 1))
      (pcRun oracle fullIds.length ⟨[], [], []⟩
        (fullIds.take (p + 1)))).2.2.1
  have hrunfull : pcRun oracle fullIds.length ⟨[], [], []⟩ fullIds
      = pcRun oracle fullIds.length
          (pcRun oracle fullIds.length ⟨[], [], []⟩
            (fullIds.take (p + 1)))
          (fullIds.drop (p + 1)) := by
    have key : ∀ nc : Nat, pcRun oracle nc ⟨[], [], []⟩ fullIds
        = pcRun oracle nc
            (pcRun oracle nc ⟨[], [], []⟩ (fullIds.take (p + 1)))
            (fullIds.drop (p + 1)) := by
      intro nc
      conv_lhs => rw [← List.take_append_drop (p + 1) fullIds]
      rw [pcRun_append]
    exact key fullIds.length
  have hmatfull : (pcRun oracle fullIds.length ⟨[], [], []⟩
        fullIds).matrix
      = (pcRun oracle fullIds.length ⟨[], [], []⟩
          (fullIds.take p)).matrix ++ [unitRow fullIds.length i] ++ ext := by
    rw [hrunfull, hext, hmat1]
  have hplen : (pcRun oracle fullIds.length ⟨[], [], []⟩
      (fullIds.take p)).matrix.length = p := by
    have h2 := (pcRun_parts oracle fullIds.length (fullIds.take p)
      ⟨[], [], []⟩).2.1
    simp at h2
    omega
  rw [hmatfull, List.getD_eq_getElem?_getD, List.append_assoc,
    List.getElem?_append_right (by omega), hplen]
  simp

/-- C5: for every recurrence oracle and identifier list, the reduction
matrix built by `precompute_coeff_matrix` has one row per full identifier
and one column per stored identifier, and the rows at the positions of the
stored identifiers, taken in order, form the identity matrix. -/
theorem c5_reduction_matrix_shape
    (oracle : MultiIndex → List MultiIndex → Nat → Option (List R))
    (fullIds : List MultiIndex) :
    (precomputeCoeffMatrix oracle fullIds).2.length = fullIds.length ∧
    (∀ row ∈ (precomputeCoeffMatrix oracle fullIds).2,
      row.length = (precomputeCoeffMatrix oracle fullIds).1.length) ∧
    (storedPositions oracle fullIds).length
        = (precomputeCoeffMatrix oracle fullIds).1.length ∧
    (∀ i, i < (precomputeCoeffMatrix oracle fullIds).1.length →
      (precomputeCoeffMatrix oracle fullIds).2.getD
          ((storedPositions oracle fullIds).getD i 0) [] =
        unitRow (precomputeCoeffMatrix oracle fullIds).1.length i) := by
  have hparts := pcRun_parts oracle fullIds.length fullIds ⟨[], [], []⟩
  have hmatlen : (pcRun oracle fullIds.length ⟨[], [], []⟩
      fullIds).matrix.length = fullIds.length := by
    have := hparts.2.1
    simpa using this
  have hrowlen : ∀ r ∈ (pcRun oracle fullIds.length ⟨[], [], []⟩
      fullIds).matrix, r.length = fullIds.length := by
    intro r hr
    exact hparts.2.2.2.2.2 (by intro r1 hr1; simp at hr1) r hr
  have hncols : (pcRun oracle fullIds.length ⟨[], [], []⟩
      fullIds).stored.length ≤ fullIds.length := by
    have := hparts.2.2.2.2.1
    simpa using this
  have hposlen : (storedPositions oracle fullIds).length
      = (pcRun oracle fullIds.length ⟨[], [], []⟩
          fullIds).stored.length := by
    have h1 := pcRun_stored_count oracle fullIds.length fullIds
      fullIds.length (le_refl _)
    rw [List.take_length] at h1
    rw [storedPositions]
    omega
  refine ⟨?_, ?_, ?_, ?_⟩
  · show ((pcRun oracle fullIds.length ⟨[], [], []⟩ fullIds).matrix.map
        _).length = fullIds.length
    simpa using hmatlen
  · intro row hrow
    obtain ⟨r, hr, hrt⟩ := List.mem_map.mp hrow
    show row.length = (pcRun oracle fullIds.length ⟨[], [], []⟩
        fullIds).stored.length
    rw [← hrt, List.length_take, hrowlen r hr]
    omega
  · exact hposlen
  · intro i hi
    have hp1 : (precomputeCoeffMatrix oracle fullIds).1.length
        = (pcRun oracle fullIds.length ⟨[], [], []⟩
            fullIds).stored.length := rfl
    have hilen : i < ((List.range fullIds.length).filter
        (fun p => (oracle (fullIds.getD p []) (fullIds.take p)
          fullIds.length).isNone)).length := by
      have hsp : (storedPositions oracle fullIds).length
          = ((List.range fullIds.length).filter
            (fun p => (oracle (fullIds.getD p []) (fullIds.take p)
              fullIds.length).isNone)).length := rfl
      omega
    obtain ⟨hq1, hq2, hq3⟩ := filter_range_getD
      (fun p => (oracle (fullIds.getD p []) (fullIds.take p)
        fullIds.length).isNone) fullIds.length i hilen
    have hpp : (storedPositions oracle fullIds).getD i 0
        = ((List.range fullIds.length).filter
          (fun p => (oracle (fullIds.getD p []) (fullIds.take p)
            fullIds.length).isNone)).getD i 0 := rfl
    have hor : oracle (fullIds.getD ((storedPositions oracle
          fullIds).getD i 0) []) (fullIds.take ((storedPositions oracle
          fullIds).getD i 0)) fullIds.length = none :=
      Option.isNone_iff_eq_none.mp hq1
    have hcnt : (pcRun oracle fullIds.length ⟨[], [], []⟩
        (fullIds.take
          ((storedPositions oracle fullIds).getD i 0))).stored.length
        = i := by
      have h3 := pcRun_stored_count oracle fullIds.length fullIds
        ((storedPositions oracle fullIds).getD i 0) (le_of_lt hq3)
      rw [h3]
      exact hq2
    have hunit := pcRun_unit_row_at oracle fullIds i
      ((storedPositions oracle fullIds).getD i 0) hq3 hor hcnt
    show ((pcRun oracle fullIds.length ⟨[], [], []⟩ fullIds).matrix.map
        (fun row => row.take (pcRun oracle fullIds.length ⟨[], [], []⟩
          fullIds).stored.length)).getD
        ((storedPositions oracle fullIds).getD i 0) []
      = unitRow (pcRun oracle fullIds.length ⟨[], [], []⟩
          fullIds).stored.length i
    have hlt : (storedPositions oracle fullIds).getD i 0 <
        (pcRun oracle fullIds.length ⟨[], [], []⟩
          fullIds).matrix.length := by omega
    have hsome : (pcRun oracle fullIds.length ⟨[], [], []⟩
        fullIds).matrix[(storedPositions oracle fullIds).getD i 0]?
        = some (unitRow fullIds.length i) := by
      have h4 := hunit
      rw [List.getD_eq_getElem?_getD] at h4
      cases hx : (pcRun oracle fullIds.length ⟨[], [], []⟩
          fullIds).matrix[(storedPositions oracle fullIds).getD i 0]? with
      | none =>
          exfalso
          rw [List.getElem?_eq_none_iff] at hx
          omega
      | some x =>
          rw [hx] at h4
          simp only [Option.getD_some] at h4
          rw [h4]
    rw [List.getD_eq_getElem?_getD, List.getElem?_map, hsome]
    simp only [Option.map_some', Option.getD_some]
    exact take_unitRow fullIds.length _ i hncols

/-! ### Cache, dominance and minimum lemmas (towards C6, C7, C10, C2) -/

theorem lookupMi_dictSet_self {E : Type} (c : Cache E) (k : MultiIndex)
    (v : E) : lookupMi (dictSet c k v) k = some v := by
  induction c with
  | nil => simp [dictSet, lookupMi]
  | cons p rest ih =>
      obtain ⟨k1, v1⟩ := p
      by_cases h : k1 = k
      · subst h
        simp [dictSet, lookupMi]
      · simp [dictSet, lookupMi, h, ih]

theorem lookupMi_dictSet_ne {E : Type} (c : Cache E) (k k1 : MultiIndex)
    (v : E) (h : k1 ≠ k) :
    lookupMi (dictSet c k v) k1 = lookupMi c k1 := by
  induction c with
  | nil =>
      have hne : ¬(k = k1) := fun hc => h hc.symm
      simp [dictSet, lookupMi, hne]
  | cons p rest ih =>
      obtain ⟨k2, v2⟩ := p
      by_cases h2 : k2 = k
      · subst h2
        have hne : ¬(k2 = k1) := fun hc => h hc.symm
        simp [dictSet, lookupMi, hne]
      · by_cases h3 : k2 = k1
        · subst h3
          simp [dictSet, lookupMi, h2]
        · simp [dictSet, lookupMi, h2, h3, ih]

theorem mem_cacheKeys_dictSet {E : Type} (c : Cache E) (k k1 : MultiIndex)
    (v : E) : k1 ∈ cacheKeys (dictSet c k v) ↔
      k1 ∈ cacheKeys c ∨ k1 = k := by
  induction c with
  | nil => simp [dictSet, cacheKeys]
  | cons p rest ih =>
      obtain ⟨k2, v2⟩ := p
      by_cases h2 : k2 = k
      · simp only [dictSet, if_pos h2, cacheKeys, List.map_cons,
          List.mem_cons]
        subst h2
        tauto
      · simp only [dictSet, if_neg h2, cacheKeys, List.map_cons,
          List.mem_cons]
        simp only [cacheKeys] at ih
        rw [ih]
        tauto

theorem lookupMi_isSome_of_mem {E : Type} (c : Cache E) (k : MultiIndex)
    (h : k ∈ cacheKeys c) : ∃ v, lookupMi c k = some v := by
  induction c with
  | nil => simp [cacheKeys] at h
  | cons p rest ih =>
      obtain ⟨k1, v1⟩ := p
      by_cases h1 : k1 = k
      · subst h1
        exact ⟨v1, by simp [lookupMi]⟩
      · have hne : ¬(k = k1) := fun hc => h1 hc.symm
        have : k ∈ cacheKeys rest := by
          simpa [cacheKeys, hne] using h
        obtain ⟨v, hv⟩ := ih this
        exact ⟨v, by simp [lookupMi, h1, hv]⟩

theorem lookupMi_mem_of_isSome {E : Type} (c : Cache E) (k : MultiIndex)
    (v : E) (h : lookupMi c k = some v) : k ∈ cacheKeys c := by
  induction c with
  | nil => simp [lookupMi] at h
  | cons p rest ih =>
      obtain ⟨k1, v1⟩ := p
      by_cases h1 : k1 = k
      · subst h1
        simp [cacheKeys]
      · simp only [lookupMi, if_neg h1] at h
        have := ih h
        simp [cacheKeys] at this ⊢
        exact Or.inr this

theorem pyMinBy_eq_none_iff {α : Type} (f : α → Int) (l : List α) :
    pyMinBy f l = none ↔ l = [] := by
  cases l with
  | nil => simp [pyMinBy]
  | cons x xs => simp [pyMinBy]

theorem foldl_min_spec {α : Type} (f : α → Int) :
    ∀ (xs : List α) (best : α),
      ((xs.foldl (fun b y => if f y < f b then y else b) best) = best ∨
        (xs.foldl (fun b y => if f y < f b then y else b) best) ∈ xs) ∧
      f (xs.foldl (fun b y => if f y < f b then y else b) best) ≤ f best ∧
      ∀ y ∈ xs,
        f (xs.foldl (fun b y => if f y < f b then y else b) best) ≤ f y := by
  intro xs
  induction xs with
  | nil => intro best; simp
  | cons x xs ih =>
      intro best
      simp only [List.foldl_cons]
      obtain ⟨ih1, ih2, ih3⟩ := ih (if f x < f best then x else best)
      have hb : f (if f x < f best then x else best) ≤ f best := by
        by_cases h : f x < f best
        · rw [if_pos h]; omega
        · rw [if_neg h]
      have hx : f (if f x < f best then x else best) ≤ f x := by
        by_cases h : f x < f best
        · rw [if_pos h]
        · rw [if_neg h]; omega
      refine ⟨?_, le_trans ih2 hb, ?_⟩
      · rcases ih1 with h1 | h1
        · rw [h1]
          by_cases h : f x < f best
          · rw [if_pos h]
            exact Or.inr (List.mem_cons_self _ _)
          · rw [if_neg h]
            exact Or.inl rfl
        · exact Or.inr (List.mem_cons_of_mem _ h1)
      · intro y hy
        rcases List.mem_cons.mp hy with rfl | hy1
        · exact le_trans ih2 hx
        · exact ih3 y hy1

theorem pyMinBy_spec {α : Type} (f : α → Int) (l : List α) (r : α)
    (h : pyMinBy f l = some r) : r ∈ l ∧ ∀ y ∈ l, f r ≤ f y := by
  cases l with
  | nil => simp [pyMinBy] at h
  | cons x xs =>
      simp only [pyMinBy, Option.some.injEq] at h
      obtain ⟨h1, h2, h3⟩ := foldl_min_spec f xs x
      rw [h] at h1 h2 h3
      constructor
      · rcases h1 with h1 | h1
        · rw [h1]; exact List.mem_cons_self _ _
        · exact List.mem_cons_of_mem _ h1
      · intro y hy
        rcases List.mem_cons.mp hy with rfl | hy1
        · exact h2
        · exact h3 y hy1

theorem dominatesB_iff (mi other : MultiIndex)
    (hlen : other.length = mi.length) :
    dominatesB mi other = true ↔
      ∀ i, i < mi.length → other.getD i 0 ≤ mi.getD i 0 := by
  induction mi generalizing other with
  | nil =>
      cases other with
      | nil => simp [dominatesB]
      | cons b bs => simp at hlen
  | cons a as ih =>
      cases other with
      | nil => simp at hlen
      | cons b bs =>
          have hlen1 : bs.length = as.length := by simpa using hlen
          have hrec := ih bs hlen1
          constructor
          · intro h i hi
            have h2 : (b ≤ a) ∧ dominatesB as bs = true := by
              simpa [dominatesB] using h
            cases i with
            | zero => simpa using h2.1
            | succ i1 =>
                have := (hrec.mp h2.2) i1 (by simpa using hi)
                simpa using this
          · intro h
            have hb : b ≤ a := by simpa using h 0 (by simp)
            have hrest : ∀ i, i < as.length → bs.getD i 0 ≤ as.getD i 0 := by
              intro i hi
              have := h (i + 1) (by simpa using hi)
              simpa using this
            simpa [dominatesB, hb] using hrec.mpr hrest

theorem dominatesB_replicate_zero (mi : MultiIndex) (n : Nat) :
    dominatesB mi (List.replicate n 0) = true := by
  induction mi generalizing n with
  | nil => simp [dominatesB]
  | cons a as ih =>
      cases n with
      | zero => simp [dominatesB]
      | succ n1 =>
          simpa [dominatesB, List.replicate_succ] using ih n1

theorem miDist_eq_sub (mi other : MultiIndex)
    (hlen : other.length = mi.length) :
    miDist mi other = (mi.sum : Int) - (other.sum : Int) := by
  induction mi generalizing other with
  | nil =>
      cases other with
      | nil => simp [miDist]
      | cons b bs => simp at hlen
  | cons a as ih =>
      cases other with
      | nil => simp at hlen
      | cons b bs =>
          have hlen1 : bs.length = as.length := by simpa using hlen
          have := ih bs hlen1
          simp only [miDist, List.zipWith_cons_cons, List.sum_cons] at this ⊢
          rw [this]
          push_cast
          ring

theorem getClosest_spec {E : Type} (t : MiDerivativeTaker E)
    (mi cmi : MultiIndex) (h : getClosestCachedMi t mi = some cmi) :
    cmi ∈ cacheKeys t.cacheByMi ∧ dominatesB mi cmi = true ∧
      ∀ k ∈ cacheKeys t.cacheByMi, dominatesB mi k = true →
        miDist mi cmi ≤ miDist mi k := by
  obtain ⟨hmem, hmin⟩ := pyMinBy_spec _ _ _ h
  have h1 := List.mem_filter.mp hmem
  refine ⟨h1.1, h1.2, ?_⟩
  intro k hk hdom
  exact hmin k (List.mem_filter.mpr ⟨hk, hdom⟩)

theorem getClosest_isSome_of_candidate {E : Type} (t : MiDerivativeTaker E)
    (mi k0 : MultiIndex) (hk0 : k0 ∈ cacheKeys t.cacheByMi)
    (hdom : dominatesB mi k0 = true) :
    ∃ cmi, getClosestCachedMi t mi = some cmi := by
  cases h : getClosestCachedMi t mi with
  | some cmi => exact ⟨cmi, rfl⟩
  | none =>
      exfalso
      have hempty := (pyMinBy_eq_none_iff _ _).mp h
      have : k0 ∈ (cacheKeys t.cacheByMi).filter
          (fun otherMi => dominatesB mi otherMi) :=
        List.mem_filter.mpr ⟨hk0, hdom⟩
      rw [hempty] at this
      simp at this

/-! ### Structure of the derivative-taking sequence -/

theorem getD_set_self_nat (l : List Nat) (i a : Nat) (h : i < l.length) :
    (l.set i a).getD i 0 = a := by
  simp [List.getD_eq_getElem?_getD, List.getElem?_set_self h]

theorem getD_set_ne_nat (l : List Nat) (i j a : Nat) (h : i ≠ j) :
    (l.set i a).getD j 0 = l.getD j 0 := by
  simp [List.getD_eq_getElem?_getD, List.getElem?_set_ne h]

theorem set_getD_self_nat (l : List Nat) (i : Nat) :
    l.set i (l.getD i 0) = l := by
  induction l generalizing i with
  | nil => simp
  | cons a as ih =>
      cases i with
      | zero => simp
      | succ i1 =>
          rw [List.getD_cons_succ, List.set_cons_succ, ih i1]

theorem sum_set_add (l : List Nat) (i j : Nat) (h : i < l.length) :
    (l.set i (l.getD i 0 + j)).sum = l.sum + j := by
  induction l generalizing i with
  | nil => simp at h
  | cons a as ih =>
      cases i with
      | zero =>
          simp only [List.getD_cons_zero, List.set_cons_zero,
            List.sum_cons]
          omega
      | succ i1 =>
          have hih := ih i1 (by simpa using h)
          simp only [List.getD_cons_succ, List.set_cons_succ,
            List.sum_cons, hih]
          omega

theorem eq_of_getD_eq (l1 l2 : List Nat) (hlen : l1.length = l2.length)
    (h : ∀ i, i < l1.length → l1.getD i 0 = l2.getD i 0) : l1 = l2 := by
  apply List.ext_getElem hlen
  intro i h1 h2
  have hi := h i h1
  rw [List.getD_eq_getElem?_getD, List.getD_eq_getElem?_getD,
    List.getElem?_eq_getElem h1, List.getElem?_eq_getElem h2] at hi
  simpa using hi

theorem axisSteps_mem :
    ∀ (cnt : Nat) (cur : MultiIndex) (idx : Nat), idx < cur.length →
      ∀ p ∈ axisSteps cur idx cnt, p.1 = idx ∧
        ∃ j, 1 ≤ j ∧ j ≤ cnt ∧
          p.2 = cur.set idx (cur.getD idx 0 + j) := by
  intro cnt
  induction cnt with
  | zero =>
      intro cur idx _ p hp
      simp [axisSteps] at hp
  | succ n ih =>
      intro cur idx hidx p hp
      simp only [axisSteps] at hp
      rcases List.mem_cons.mp hp with rfl | hp1
      · exact ⟨rfl, 1, le_refl _, by omega, rfl⟩
      · have hidx1 : idx < (cur.set idx (cur.getD idx 0 + 1)).length := by
          simpa using hidx
        obtain ⟨h1, j, hj1, hj2, hj3⟩ := ih _ idx hidx1 p hp1
        refine ⟨h1, j + 1, by omega, by omega, ?_⟩
        rw [hj3, getD_set_self_nat _ _ _ hidx, List.set_set]
        have harith : cur.getD idx 0 + 1 + j = cur.getD idx 0 + (j + 1) := by
          omega
        rw [harith]

theorem axisSteps_pairwise :
    ∀ (cnt : Nat) (cur : MultiIndex) (idx : Nat), idx < cur.length →
      (axisSteps cur idx cnt).Pairwise
        (fun p q => p.2.sum < q.2.sum) := by
  intro cnt
  induction cnt with
  | zero => intro cur idx _; simp [axisSteps]
  | succ n ih =>
      intro cur idx hidx
      simp only [axisSteps]
      have hidx1 : idx < (cur.set idx (cur.getD idx 0 + 1)).length := by
        simpa using hidx
      refine List.pairwise_cons.mpr ⟨?_, ih _ idx hidx1⟩
      intro p hp
      obtain ⟨_, j, hj1, _, hj3⟩ := axisSteps_mem n _ idx hidx1 p hp
      rw [hj3, getD_set_self_nat _ _ _ hidx, List.set_set]
      have harith : cur.getD idx 0 + 1 + j = cur.getD idx 0 + (1 + j) := by
        omega
      rw [harith, sum_set_add cur idx (1 + j) hidx,
        sum_set_add cur idx 1 hidx]
      omega

theorem axisSteps_concat :
    ∀ (cnt : Nat) (cur : MultiIndex) (idx : Nat), idx < cur.length →
      axisSteps cur idx (cnt + 1) =
        axisSteps cur idx cnt ++
          [(idx, cur.set idx (cur.getD idx 0 + (cnt + 1)))] := by
  intro cnt
  induction cnt with
  | zero =>
      intro cur idx _
      simp [axisSteps]
  | succ n ih =>
      intro cur idx hidx
      have hidx1 : idx < (cur.set idx (cur.getD idx 0 + 1)).length := by
        simpa using hidx
      have hstep : axisSteps cur idx (n + 1 + 1)
          = (idx, cur.set idx (cur.getD idx 0 + 1)) ::
            axisSteps (cur.set idx (cur.getD idx 0 + 1)) idx (n + 1) := rfl
      have hstep2 : axisSteps cur idx (n + 1)
          = (idx, cur.set idx (cur.getD idx 0 + 1)) ::
            axisSteps (cur.set idx (cur.getD idx 0 + 1)) idx n := rfl
      rw [hstep, ih _ idx hidx1, hstep2]
      simp only [List.cons_append]
      have hkey : (cur.set idx (cur.getD idx 0 + 1)).set idx
          ((cur.set idx (cur.getD idx 0 + 1)).getD idx 0 + (n + 1))
          = cur.set idx (cur.getD idx 0 + (n + 1 + 1)) := by
        rw [getD_set_self_nat _ _ _ hidx, List.set_set]
        congr 1
        omega
      rw [hkey]

theorem dtsFrom_eq_nil (target : MultiIndex) :
    ∀ (fuel : Nat) (idx : Nat) (cur : MultiIndex),
      (∀ i, idx ≤ i → i < idx + fuel →
        cur.getD i 0 = target.getD i 0) →
      dtsFrom target cur idx fuel = [] := by
  intro fuel
  induction fuel with
  | zero => intro idx cur _; rfl
  | succ n ih =>
      intro idx cur hagree
      have hc : target.getD idx 0 - cur.getD idx 0 = 0 := by
        have := hagree idx (le_refl _) (by omega)
        omega
      show axisSteps cur idx (target.getD idx 0 - cur.getD idx 0) ++
          dtsFrom target
            (cur.set idx (cur.getD idx 0 +
              (target.getD idx 0 - cur.getD idx 0))) (idx + 1) n = []
      rw [hc]
      show axisSteps cur idx 0 ++
        dtsFrom target (cur.set idx (cur.getD idx 0 + 0)) (idx + 1) n = []
      rw [Nat.add_zero, set_getD_self_nat]
      show [] ++ dtsFrom target cur (idx + 1) n = []
      rw [List.nil_append]
      exact ih (idx + 1) cur (fun i hi1 hi2 => hagree i (by omega) (by omega))

theorem dtsFrom_mem (target : MultiIndex) :
    ∀ (fuel : Nat) (idx : Nat) (cur : MultiIndex),
      cur.length = target.length → idx + fuel ≤ cur.length →
      (∀ i, i < cur.length → cur.getD i 0 ≤ target.getD i 0) →
      ∀ p ∈ dtsFrom target cur idx fuel,
        p.2.length = cur.length ∧
        (∀ i, i < cur.length → p.2.getD i 0 ≤ target.getD i 0) ∧
        cur.sum < p.2.sum := by
  intro fuel
  induction fuel with
  | zero =>
      intro idx cur _ _ _ p hp
      simp [dtsFrom] at hp
  | succ n ih =>
      intro idx cur hlen hbound hdom p hp
      have hidx : idx < cur.length := by omega
      have hdomidx := hdom idx hidx
      rcases List.mem_append.mp hp with hp1 | hp1
      · obtain ⟨_, j, hj1, hj2, hj3⟩ := axisSteps_mem _ _ idx hidx p hp1
        refine ⟨by rw [hj3]; simp, ?_, ?_⟩
        · intro i hi
          by_cases hii : i = idx
          · subst hii
            rw [hj3, getD_set_self_nat _ _ _ hidx]
            omega
          · rw [hj3, getD_set_ne_nat _ _ _ _ (fun hc => hii hc.symm)]
            exact hdom i hi
        · rw [hj3, sum_set_add _ _ _ hidx]
          omega
      · have hlen1 : (cur.set idx (cur.getD idx 0 +
            (target.getD idx 0 - cur.getD idx 0))).length = cur.length := by
          simp
        have hdom1 : ∀ i, i < (cur.set idx (cur.getD idx 0 +
            (target.getD idx 0 - cur.getD idx 0))).length →
            (cur.set idx (cur.getD idx 0 +
              (target.getD idx 0 - cur.getD idx 0))).getD i 0
              ≤ target.getD i 0 := by
          intro i hi
          rw [hlen1] at hi
          by_cases hii : i = idx
          · subst hii
            rw [getD_set_self_nat _ _ _ hidx]
            omega
          · rw [getD_set_ne_nat _ _ _ _ (fun hc => hii hc.symm)]
            exact hdom i hi
        obtain ⟨h1, h2, h3⟩ := ih (idx + 1) _
          (by rw [hlen1]; exact hlen) (by rw [hlen1]; omega) hdom1 p hp1
        rw [hlen1] at h1 h2
        refine ⟨h1, h2, ?_⟩
        have hsum : (cur.set idx (cur.getD idx 0 +
            (target.getD idx 0 - cur.getD idx 0))).sum
            = cur.sum + (target.getD idx 0 - cur.getD idx 0) :=
          sum_set_add _ _ _ hidx
        omega

theorem dtsFrom_pairwise (target : MultiIndex) :
    ∀ (fuel : Nat) (idx : Nat) (cur : MultiIndex),
      cur.length = target.length → idx + fuel ≤ cur.length →
      (∀ i, i < cur.length → cur.getD i 0 ≤ target.getD i 0) →
      (dtsFrom target cur idx fuel).Pairwise
        (fun p q => p.2.sum < q.2.sum) := by
  intro fuel
  induction fuel with
  | zero => intro idx cur _ _ _; simp [dtsFrom]
  | succ n ih =>
      intro idx cur hlen hbound hdom
      have hidx : idx < cur.length := by omega
      show (axisSteps cur idx (target.getD idx 0 - cur.getD idx 0) ++
          dtsFrom target
            (cur.set idx (cur.getD idx 0 +
              (target.getD idx 0 - cur.getD idx 0))) (idx + 1) n).Pairwise _
      rw [List.pairwise_append]
      have hlen1 : (cur.set idx (cur.getD idx 0 +
          (target.getD idx 0 - cur.getD idx 0))).length = cur.length := by
        simp
      have hdom1 : ∀ i, i < (cur.set idx (cur.getD idx 0 +
          (target.getD idx 0 - cur.getD idx 0))).length →
          (cur.set idx (cur.getD idx 0 +
            (target.getD idx 0 - cur.getD idx 0))).getD i 0
            ≤ target.getD i 0 := by
        intro i hi
        rw [hlen1] at hi
        by_cases hii : i = idx
        · rw [hii, getD_set_self_nat _ _ _ hidx]
          have := hdom idx hidx
          omega
        · rw [getD_set_ne_nat _ _ _ _ (fun hc => hii hc.symm)]
          exact hdom i hi
      refine ⟨axisSteps_pairwise _ _ idx hidx, ?_, ?_⟩
      · exact ih (idx + 1) _ (by rw [hlen1]; exact hlen)
          (by rw [hlen1]; omega) hdom1
      · intro p hp q hq
        obtain ⟨_, j, hj1, hj2, hj3⟩ := axisSteps_mem _ _ idx hidx p hp
        obtain ⟨_, _, hqsum⟩ := dtsFrom_mem target n (idx + 1) _
          (by rw [hlen1]; exact hlen) (by rw [hlen1]; omega) hdom1 q hq
        rw [hj3, sum_set_add _ _ _ hidx]
        have hsum : (cur.set idx (cur.getD idx 0 +
            (target.getD idx 0 - cur.getD idx 0))).sum
            = cur.sum + (target.getD idx 0 - cur.getD idx 0) :=
          sum_set_add _ _ _ hidx
        omega

theorem dtsFrom_getLast (target : MultiIndex) :
    ∀ (fuel : Nat) (idx : Nat) (cur : MultiIndex),
      cur.length = target.length → idx + fuel = cur.length →
      (∀ i, i < cur.length → cur.getD i 0 ≤ target.getD i 0) →
      (∀ i, i < idx → cur.getD i 0 = target.getD i 0) →
      cur ≠ target →
      ∃ ax, (dtsFrom target cur idx fuel).getLast? = some (ax, target) := by
  intro fuel
  induction fuel with
  | zero =>
      intro idx cur hlen hbound hdom hagree hne
      exfalso
      exact hne (eq_of_getD_eq _ _ hlen
        (fun i hi => hagree i (by omega)))
  | succ n ih =>
      intro idx cur hlen hbound hdom hagree hne
      have hidx : idx < cur.length := by omega
      have hdomidx := hdom idx hidx
      show ∃ ax, (axisSteps cur idx (target.getD idx 0 - cur.getD idx 0) ++
          dtsFrom target
            (cur.set idx (cur.getD idx 0 +
              (target.getD idx 0 - cur.getD idx 0))) (idx + 1) n).getLast?
          = some (ax, target)
      cases hcnt : target.getD idx 0 - cur.getD idx 0 with
      | zero =>
          have heq : cur.getD idx 0 = target.getD idx 0 := by omega
          show ∃ ax, (axisSteps cur idx 0 ++ dtsFrom target
            (cur.set idx (cur.getD idx 0 + 0)) (idx + 1) n).getLast?
            = some (ax, target)
          rw [Nat.add_zero, set_getD_self_nat]
          show ∃ ax, ([] ++ dtsFrom target cur (idx + 1) n).getLast?
            = some (ax, target)
          rw [List.nil_append]
          refine ih (idx + 1) cur hlen (by omega) hdom ?_ hne
          intro i hi
          by_cases hii : i = idx
          · subst hii; exact heq
          · exact hagree i (by omega)
      | succ m =>
          have hcc : cur.getD idx 0 + (m + 1) = target.getD idx 0 := by
            omega
          have hcur1 : cur.set idx (cur.getD idx 0 + (m + 1))
              = cur.set idx (target.getD idx 0) := by
            rw [hcc]
          have hlen1 : (cur.set idx (target.getD idx 0)).length
              = cur.length := by simp
          have hdom1 : ∀ i, i < (cur.set idx (target.getD idx 0)).length →
              (cur.set idx (target.getD idx 0)).getD i 0
                ≤ target.getD i 0 := by
            intro i hi
            rw [hlen1] at hi
            by_cases hii : i = idx
            · subst hii
              rw [getD_set_self_nat _ _ _ hidx]
            · rw [getD_set_ne_nat _ _ _ _ (fun hc => hii hc.symm)]
              exact hdom i hi
          have hagree1 : ∀ i, i < idx + 1 →
              (cur.set idx (target.getD idx 0)).getD i 0
                = target.getD i 0 := by
            intro i hi
            by_cases hii : i = idx
            · subst hii
              rw [getD_set_self_nat _ _ _ hidx]
            · rw [getD_set_ne_nat _ _ _ _ (fun hc => hii hc.symm)]
              exact hagree i (by omega)
          rw [hcur1]
          have hconcat := axisSteps_concat m cur idx hidx
          by_cases hct : cur.set idx (target.getD idx 0) = target
          · have hrest : dtsFrom target
                (cur.set idx (target.getD idx 0)) (idx + 1) n = [] := by
              apply dtsFrom_eq_nil
              intro i _ _
              rw [hct]
            rw [hrest, List.append_nil, hconcat, List.getLast?_concat]
            refine ⟨idx, ?_⟩
            rw [hcc, hct]
          · obtain ⟨ax, hax⟩ := ih (idx + 1) _
              (by rw [hlen1]; exact hlen) (by rw [hlen1]; omega)
              hdom1 hagree1 hct
            refine ⟨ax, ?_⟩
            rw [List.getLast?_append, hax]
            rfl

/-! ### Walk lemmas and the derivative-cache theorems -/

theorem plainWalk_unchanged {E : Type} (dOp : Nat → E → E) :
    ∀ (steps : List (Nat × MultiIndex)) (init : E × Cache E)
      (k : MultiIndex), (∀ p ∈ steps, p.2 ≠ k) →
      lookupMi ((steps.foldl (plainWalkStep dOp) init).2) k
        = lookupMi init.2 k := by
  intro steps
  induction steps with
  | nil => intro init k _; rfl
  | cons s ss ih =>
      intro init k hk
      rw [List.foldl_cons]
      rw [ih (plainWalkStep dOp init s) k
        (fun p hp => hk p (List.mem_cons_of_mem _ hp))]
      exact lookupMi_dictSet_ne _ _ _ _
        (fun hc => hk s (List.mem_cons_self _ _) hc.symm)

theorem plainWalk_last {E : Type} (dOp : Nat → E → E)
    (l : List (Nat × MultiIndex)) (s : Nat × MultiIndex)
    (init : E × Cache E) :
    lookupMi (((l ++ [s]).foldl (plainWalkStep dOp) init).2) s.2
      = some (((l ++ [s]).foldl (plainWalkStep dOp) init).1) := by
  rw [List.foldl_append]
  exact lookupMi_dictSet_self _ _ _

theorem plainWalk_keys_mono {E : Type} (dOp : Nat → E → E) :
    ∀ (steps : List (Nat × MultiIndex)) (init : E × Cache E)
      (k : MultiIndex), k ∈ cacheKeys init.2 →
      k ∈ cacheKeys ((steps.foldl (plainWalkStep dOp) init).2) := by
  intro steps
  induction steps with
  | nil => intro init k hk; exact hk
  | cons s ss ih =>
      intro init k hk
      rw [List.foldl_cons]
      exact ih (plainWalkStep dOp init s) k
        ((mem_cacheKeys_dictSet _ _ _ _).mpr (Or.inl hk))

theorem lrWalkStep_of_some {C E : Type} (eng : SymEngine C E)
    (oracle : MultiIndex → Cache E → Option (List (MultiIndex × C)))
    (init : E × Cache E) (s : Nat × MultiIndex) (v : E)
    (h : lrStep eng oracle init.2 init.1 s.1 s.2 = some v) :
    lrWalkStep eng oracle init s = some (v, dictSet init.2 s.2 v) := by
  simp [lrWalkStep, h]

theorem lrWalkStep_of_none {C E : Type} (eng : SymEngine C E)
    (oracle : MultiIndex → Cache E → Option (List (MultiIndex × C)))
    (init : E × Cache E) (s : Nat × MultiIndex)
    (h : lrStep eng oracle init.2 init.1 s.1 s.2 = none) :
    lrWalkStep eng oracle init s = none := by
  simp [lrWalkStep, h]

theorem lrWalkStep_inv {C E : Type} (eng : SymEngine C E)
    (oracle : MultiIndex → Cache E → Option (List (MultiIndex × C)))
    (init : E × Cache E) (s : Nat × MultiIndex) (res : E × Cache E)
    (h : lrWalkStep eng oracle init s = some res) :
    ∃ v, lrStep eng oracle init.2 init.1 s.1 s.2 = some v ∧
      res = (v, dictSet init.2 s.2 v) := by
  cases hls : lrStep eng oracle init.2 init.1 s.1 s.2 with
  | none =>
      rw [lrWalkStep_of_none eng oracle init s hls] at h
      cases h
  | some v =>
      rw [lrWalkStep_of_some eng oracle init s v hls] at h
      refine ⟨v, rfl, ?_⟩
      cases h
      rfl

theorem lrWalk_unchanged {C E : Type} (eng : SymEngine C E)
    (oracle : MultiIndex → Cache E → Option (List (MultiIndex × C))) :
    ∀ (steps : List (Nat × MultiIndex)) (init res : E × Cache E)
      (k : MultiIndex),
      steps.foldlM (lrWalkStep eng oracle) init = some res →
      (∀ p ∈ steps, p.2 ≠ k) →
      lookupMi res.2 k = lookupMi init.2 k := by
  intro steps
  induction steps with
  | nil =>
      intro init res k h _
      simp only [List.foldlM_nil] at h
      cases h
      rfl
  | cons s ss ih =>
      intro init res k h hk
      rw [List.foldlM_cons] at h
      cases hstep : lrWalkStep eng oracle init s with
      | none => rw [hstep] at h; cases h
      | some mid =>
          rw [hstep] at h
          simp only [Option.bind_eq_bind, Option.some_bind] at h
          rw [ih mid res k h (fun p hp => hk p (List.mem_cons_of_mem _ hp))]
          obtain ⟨v, _, hmid⟩ := lrWalkStep_inv eng oracle init s mid hstep
          rw [hmid]
          exact lookupMi_dictSet_ne _ _ _ _
            (fun hc => hk s (List.mem_cons_self _ _) hc.symm)

theorem lrWalk_keys_mono {C E : Type} (eng : SymEngine C E)
    (oracle : MultiIndex → Cache E → Option (List (MultiIndex × C))) :
    ∀ (steps : List (Nat × MultiIndex)) (init res : E × Cache E)
      (k : MultiIndex),
      steps.foldlM (lrWalkStep eng oracle) init = some res →
      k ∈ cacheKeys init.2 → k ∈ cacheKeys res.2 := by
  intro steps
  induction steps with
  | nil =>
      intro init res k h hk
      simp only [List.foldlM_nil] at h
      cases h
      exact hk
  | cons s ss ih =>
      intro init res k h hk
      rw [List.foldlM_cons] at h
      cases hstep : lrWalkStep eng oracle init s with
      | none => rw [hstep] at h; cases h
      | some mid =>
          rw [hstep] at h
          simp only [Option.bind_eq_bind, Option.some_bind] at h
          obtain ⟨v, _, hmid⟩ := lrWalkStep_inv eng oracle init s mid hstep
          apply ih mid res k h
          rw [hmid]
          exact (mem_cacheKeys_dictSet _ _ _ _).mpr (Or.inl hk)

theorem gts_eq_dtsFrom (n : Nat) (startMi endMi : MultiIndex) :
    getDerivativeTakingSequence n startMi endMi
      = dtsFrom endMi startMi 0 n := rfl

/-- C7: `MiDerivativeTaker.diff` is idempotent and append-only: when a
call for `mi` succeeds, an immediately repeated call returns the identical
cached expression and taker, and no entry previously cached for any
multi-index is removed or replaced. -/
theorem c7_taker_diff_idempotent (E : Type) (dOp : Nat → E → E)
    (t : MiDerivativeTaker E) (mi : MultiIndex)
    (hkeys : ∀ k ∈ cacheKeys t.cacheByMi, k.length = t.varCount)
    (hmi : mi.length = t.varCount)
    (e1 : E) (t1 : MiDerivativeTaker E)
    (hdiff : takerDiff dOp t mi = some (e1, t1)) :
    takerDiff dOp t1 mi = some (e1, t1) ∧
    ∀ k ∈ cacheKeys t.cacheByMi,
      lookupMi t1.cacheByMi k = lookupMi t.cacheByMi k := by
  cases hcache : lookupMi t.cacheByMi mi with
  | some e =>
      simp only [takerDiff, hcache, Option.some.injEq, Prod.mk.injEq]
        at hdiff
      obtain ⟨he1, ht1⟩ := hdiff
      subst he1
      subst ht1
      constructor
      · simp [takerDiff, hcache]
      · intro k _
        rfl
  | none =>
      cases hclosest : getClosestCachedMi t mi with
      | none => simp [takerDiff, hcache, hclosest] at hdiff
      | some cmi =>
          cases he0 : lookupMi t.cacheByMi cmi with
          | none => simp [takerDiff, hcache, hclosest, he0] at hdiff
          | some e0 =>
              obtain ⟨hcmem, hcdom, hcmin⟩ :=
                getClosest_spec t mi cmi hclosest
              have hclen : cmi.length = t.varCount := hkeys cmi hcmem
              have hlen2 : cmi.length = mi.length := by omega
              have hne : cmi ≠ mi := by
                intro hc
                rw [hc, hcache] at he0
                cases he0
              have hdomp : ∀ i, i < cmi.length →
                  cmi.getD i 0 ≤ mi.getD i 0 := by
                have := (dominatesB_iff mi cmi hlen2).mp hcdom
                intro i hi
                exact this i (by omega)
              have hmem := dtsFrom_mem mi t.varCount 0 cmi hlen2
                (by omega) hdomp
              obtain ⟨ax, hlast⟩ := dtsFrom_getLast mi t.varCount 0 cmi
                hlen2 (by omega) hdomp (by intro i hi; omega) hne
              obtain ⟨l, hl⟩ := List.getLast?_eq_some_iff.mp hlast
              have hnotc : ∀ p ∈ dtsFrom mi cmi 0 t.varCount,
                  p.2 ∉ cacheKeys t.cacheByMi := by
                intro p hp hinc
                obtain ⟨hplen, hpdom, hpsum⟩ := hmem p hp
                have hplen2 : p.2.length = mi.length := by omega
                have hpdomB : dominatesB mi p.2 = true :=
                  (dominatesB_iff mi p.2 hplen2).mpr
                    (fun i hi => hpdom i (by omega))
                have hmin := hcmin p.2 hinc hpdomB
                rw [miDist_eq_sub mi cmi hlen2,
                  miDist_eq_sub mi p.2 hplen2] at hmin
                have hcast : (cmi.sum : Int) < (p.2.sum : Int) := by
                  exact_mod_cast hpsum
                omega
              simp only [takerDiff, hcache, hclosest, he0,
                Option.some.injEq, Prod.mk.injEq] at hdiff
              obtain ⟨he1, ht1⟩ := hdiff
              have ht1cache : t1.cacheByMi =
                  ((getDerivativeTakingSequence t.varCount cmi mi).foldl
                    (plainWalkStep dOp) (e0, t.cacheByMi)).2 := by
                rw [← ht1]
              have hlookup1 : lookupMi t1.cacheByMi mi = some e1 := by
                rw [ht1cache, ← he1, gts_eq_dtsFrom, hl]
                have := plainWalk_last dOp l (ax, mi) (e0, t.cacheByMi)
                simpa using this
              constructor
              · simp [takerDiff, hlookup1]
              · intro k hkmem
                rw [ht1cache, gts_eq_dtsFrom]
                apply plainWalk_unchanged
                intro p hp hpk
                exact hnotc p hp (hpk ▸ hkmem)

/-- C6: for a target multi-index not yet cached, the closest-cached search
returns a cached key that is componentwise at most the target and, among
all such dominated cached keys, of minimal summed componentwise distance
(the Manhattan distance, all differences being non-negative). -/
theorem c6_closest_cached_mi (E : Type) (t : MiDerivativeTaker E)
    (mi : MultiIndex)
    (hkeys : ∀ k ∈ cacheKeys t.cacheByMi, k.length = t.varCount)
    (hmi : mi.length = t.varCount)
    (hnc : lookupMi t.cacheByMi mi = none)
    (k0 : MultiIndex) (hk0 : k0 ∈ cacheKeys t.cacheByMi)
    (hk0dom : ∀ i, i < mi.length → k0.getD i 0 ≤ mi.getD i 0) :
    ∃ cmi, getClosestCachedMi t mi = some cmi ∧
      cmi ∈ cacheKeys t.cacheByMi ∧
      (∀ i, i < mi.length → cmi.getD i 0 ≤ mi.getD i 0) ∧
      ∀ k ∈ cacheKeys t.cacheByMi,
        (∀ i, i < mi.length → k.getD i 0 ≤ mi.getD i 0) →
        miDist mi cmi ≤ miDist mi k := by
  have hk0len : k0.length = mi.length := by
    rw [hkeys k0 hk0, hmi]
  obtain ⟨cmi, hcmi⟩ := getClosest_isSome_of_candidate t mi k0 hk0
    ((dominatesB_iff mi k0 hk0len).mpr hk0dom)
  obtain ⟨hcmem, hcdom, hcmin⟩ := getClosest_spec t mi cmi hcmi
  have hclen : cmi.length = mi.length := by
    rw [hkeys cmi hcmem, hmi]
  refine ⟨cmi, hcmi, hcmem, (dominatesB_iff mi cmi hclen).mp hcdom, ?_⟩
  intro k hkmem hkdom
  have hklen : k.length = mi.length := by
    rw [hkeys k hkmem, hmi]
  exact hcmin k hkmem ((dominatesB_iff mi k hklen).mpr hkdom)

/-- C10: every derivative cache contains the zero multi-index from
construction onward (mapped to the base expression at construction), both
walk variants only ever add cache keys, and as the zero multi-index is
dominated by every requested multi-index the closest-cached search always
finds a candidate. -/
theorem c10_zero_mi_always_cached :
    (∀ (E : Type) (expr : E) (n : Nat),
      lookupMi (mkMiDerivativeTaker expr n).cacheByMi
        (List.replicate n 0) = some expr) ∧
    (∀ (E : Type) (t : MiDerivativeTaker E) (mi : MultiIndex),
      List.replicate t.varCount 0 ∈ cacheKeys t.cacheByMi →
      (getClosestCachedMi t mi).isSome = true) ∧
    (∀ (E : Type) (dOp : Nat → E → E) (t : MiDerivativeTaker E)
      (mi : MultiIndex) (e1 : E) (t1 : MiDerivativeTaker E),
      takerDiff dOp t mi = some (e1, t1) →
      ∀ k ∈ cacheKeys t.cacheByMi, k ∈ cacheKeys t1.cacheByMi) ∧
    (∀ (C E : Type) (eng : SymEngine C E)
      (oracle : MultiIndex → Cache E → Option (List (MultiIndex × C)))
      (t : MiDerivativeTaker E) (mi : MultiIndex) (e1 : E)
      (t1 : MiDerivativeTaker E),
      lrDiff eng oracle t mi = some (e1, t1) →
      ∀ k ∈ cacheKeys t.cacheByMi, k ∈ cacheKeys t1.cacheByMi) := by
  refine ⟨?_, ?_, ?_, ?_⟩
  · intro E expr n
    simp [mkMiDerivativeTaker, lookupMi]
  · intro E t mi hzero
    obtain ⟨cmi, hcmi⟩ := getClosest_isSome_of_candidate t mi
      (List.replicate t.varCount 0) hzero
      (dominatesB_replicate_zero mi t.varCount)
    rw [hcmi]
    rfl
  · intro E dOp t mi e1 t1 hdiff k hkmem
    cases hcache : lookupMi t.cacheByMi mi with
    | some e =>
        simp only [takerDiff, hcache, Option.some.injEq, Prod.mk.injEq]
          at hdiff
        rw [← hdiff.2]
        exact hkmem
    | none =>
        cases hclosest : getClosestCachedMi t mi with
        | none => simp [takerDiff, hcache, hclosest] at hdiff
        | some cmi =>
            cases he0 : lookupMi t.cacheByMi cmi with
            | none => simp [takerDiff, hcache, hclosest, he0] at hdiff
            | some e0 =>
                simp only [takerDiff, hcache, hclosest, he0,
                  Option.some.injEq, Prod.mk.injEq] at hdiff
                have ht1 : t1.cacheByMi =
                    ((getDerivativeTakingSequence t.varCount cmi mi).foldl
                      (plainWalkStep dOp) (e0, t.cacheByMi)).2 := by
                  rw [← hdiff.2]
                rw [ht1]
                exact plainWalk_keys_mono dOp _ _ k hkmem
  · intro C E eng oracle t mi e1 t1 hdiff k hkmem
    cases hcache : lookupMi t.cacheByMi mi with
    | some e =>
        simp only [lrDiff, hcache, Option.some.injEq, Prod.mk.injEq]
          at hdiff
        rw [← hdiff.2]
        exact hkmem
    | none =>
        cases hclosest : getClosestCachedMi t mi with
        | none => simp [lrDiff, hcache, hclosest] at hdiff
        | some cmi =>
            cases he0 : lookupMi t.cacheByMi cmi with
            | none => simp [lrDiff, hcache, hclosest, he0] at hdiff
            | some e0 =>
                simp only [lrDiff, hcache, hclosest, he0] at hdiff
                cases hfold : (getDerivativeTakingSequence t.varCount
                    cmi mi).foldlM (lrWalkStep eng oracle)
                    (e0, t.cacheByMi) with
                | none => rw [hfold] at hdiff; cases hdiff
                | some res =>
                    rw [hfold] at hdiff
                    simp only [Option.pure_def, Option.bind_eq_bind, Option.some_bind, Option.some.injEq,
                      Prod.mk.injEq] at hdiff
                    have ht1 : t1.cacheByMi = res.2 := by
                      rw [← hdiff.2]
                    rw [ht1]
                    exact lrWalk_keys_mono eng oracle _ _ res k hfold hkmem

/-- C2: in the recurrence-aware walk, each step first consults the oracle
about the new intermediate multi-index, passing the cache built so far;
when a relation is returned the value cached at that multi-index in the
final state is the weighted sum of the cached values of the relation's
multi-indices (no differentiation), and otherwise it is the one-step
derivative of the running expression along that axis's variable. -/
theorem c2_lr_diff_recurrence_step (C E : Type) (eng : SymEngine C E)
    (oracle : MultiIndex → Cache E → Option (List (MultiIndex × C)))
    (t : MiDerivativeTaker E) (mi : MultiIndex)
    (hkeys : ∀ k ∈ cacheKeys t.cacheByMi, k.length = t.varCount)
    (hmi : mi.length = t.varCount)
    (hcache : lookupMi t.cacheByMi mi = none)
    (cmi : MultiIndex) (hclosest : getClosestCachedMi t mi = some cmi)
    (e0 : E) (he0 : lookupMi t.cacheByMi cmi = some e0)
    (l1 l2 : List (Nat × MultiIndex)) (ax : Nat) (m : MultiIndex)
    (hsplit : getDerivativeTakingSequence t.varCount cmi mi
      = l1 ++ (ax, m) :: l2)
    (e1 : E) (c1 : Cache E)
    (hfold : l1.foldlM (lrWalkStep eng oracle) (e0, t.cacheByMi)
      = some (e1, c1))
    (v : E) (hstep : lrStep eng oracle c1 e1 ax m = some v)
    (efin : E) (t1 : MiDerivativeTaker E)
    (hdiff : lrDiff eng oracle t mi = some (efin, t1)) :
    lookupMi t1.cacheByMi m = some v ∧
    (oracle m c1 = none → v = eng.derivOp ax e1) ∧
    (∀ rec, oracle m c1 = some rec →
      ∃ vals, rec.mapM (fun ic => (lookupMi c1 ic.1).map
        (fun w => eng.scale ic.2 w)) = some vals ∧
        v = eng.addMany vals) := by
  obtain ⟨hcmem, hcdom, hcmin⟩ := getClosest_spec t mi cmi hclosest
  have hclen : cmi.length = t.varCount := hkeys cmi hcmem
  have hlen2 : cmi.length = mi.length := by omega
  have hdomp : ∀ i, i < cmi.length → cmi.getD i 0 ≤ mi.getD i 0 := by
    have := (dominatesB_iff mi cmi hlen2).mp hcdom
    intro i hi
    exact this i (by omega)
  have hpair := dtsFrom_pairwise mi t.varCount 0 cmi hlen2 (by omega) hdomp
  rw [← gts_eq_dtsFrom, hsplit] at hpair
  have hl2ne : ∀ p ∈ l2, p.2 ≠ m := by
    have hp1 := (List.pairwise_append.mp hpair).2.1
    have hp2 := (List.pairwise_cons.mp hp1).1
    intro p hp hpm
    have h3 := hp2 p hp
    rw [hpm] at h3
    exact absurd h3 (lt_irrefl _)
  refine ⟨?_, ?_, ?_⟩
  · simp only [lrDiff, hcache, hclosest, he0] at hdiff
    rw [hsplit, List.foldlM_append, hfold] at hdiff
    simp only [Option.bind_eq_bind, Option.some_bind] at hdiff
    rw [List.foldlM_cons] at hdiff
    have hws : lrWalkStep eng oracle (e1, c1) (ax, m)
        = some (v, dictSet c1 m v) :=
      lrWalkStep_of_some eng oracle (e1, c1) (ax, m) v hstep
    rw [hws] at hdiff
    simp only [Option.bind_eq_bind, Option.some_bind] at hdiff
    cases hfold2 : l2.foldlM (lrWalkStep eng oracle)
        (v, dictSet c1 m v) with
    | none => rw [hfold2] at hdiff; cases hdiff
    | some res2 =>
        rw [hfold2] at hdiff
        simp only [Option.pure_def, Option.bind_eq_bind,
          Option.some_bind, Option.some.injEq, Prod.mk.injEq] at hdiff
        have ht1 : t1.cacheByMi = res2.2 := by
          rw [← hdiff.2]
        rw [ht1]
        rw [lrWalk_unchanged eng oracle l2 (v, dictSet c1 m v) res2 m
          hfold2 hl2ne]
        exact lookupMi_dictSet_self _ _ _
  · intro hor
    simp only [lrStep, hor] at hstep
    cases hstep
    rfl
  · intro rec hor
    simp only [lrStep, hor] at hstep
    obtain ⟨vals, hvals, hv⟩ := Option.map_eq_some'.mp hstep
    exact ⟨vals, hvals, hv.symm⟩

/-! ### Witnesses -/

/-- Witness for C5: the reduction matrix for Laplace 2D at order 2 has
the unit row at the position of the first stored identifier. -/
theorem c5_reduction_matrix_shape_witness :
    (precomputeCoeffMatrix (R := Int)
        (fun d iso n => laplaceTryRecurrence 2 d iso n)
        (getFullCoefficientIdentifiers 2 2)).2.getD
      ((storedPositions (R := Int)
        (fun d iso n => laplaceTryRecurrence 2 d iso n)
        (getFullCoefficientIdentifiers 2 2)).getD 0 0) []
      = unitRow (precomputeCoeffMatrix (R := Int)
        (fun d iso n => laplaceTryRecurrence 2 d iso n)
        (getFullCoefficientIdentifiers 2 2)).1.length 0 :=
  (c5_reduction_matrix_shape (R := Int)
    (fun d iso n => laplaceTryRecurrence 2 d iso n)
    (getFullCoefficientIdentifiers 2 2)).2.2.2 0 (by decide)

/-- Witness for C7: a concrete first call and its identical repetition. -/
theorem c7_taker_diff_idempotent_witness :
    takerDiff (fun ax (e : Int) => e + ax + 1)
      (MiDerivativeTaker.mk 1 [([0], 5), ([1], 6)]) [1]
      = some (6, MiDerivativeTaker.mk 1 [([0], 5), ([1], 6)]) :=
  (c7_taker_diff_idempotent Int (fun ax e => e + ax + 1)
    (MiDerivativeTaker.mk 1 [([0], 5)]) [1] (by decide) (by decide)
    6 (MiDerivativeTaker.mk 1 [([0], 5), ([1], 6)]) (by decide)).1

/-- Witness for C6: a concrete dominated-minimum search. -/
theorem c6_closest_cached_mi_witness :
    ∃ cmi, getClosestCachedMi
        (MiDerivativeTaker.mk 1 [([0], (5 : Int))]) [1] = some cmi ∧
      cmi ∈ cacheKeys (MiDerivativeTaker.mk 1 [([0], (5 : Int))]).cacheByMi ∧
      (∀ i, i < ([1] : MultiIndex).length →
        cmi.getD i 0 ≤ ([1] : MultiIndex).getD i 0) ∧
      ∀ k ∈ cacheKeys (MiDerivativeTaker.mk 1 [([0], (5 : Int))]).cacheByMi,
        (∀ i, i < ([1] : MultiIndex).length →
          k.getD i 0 ≤ ([1] : MultiIndex).getD i 0) →
        miDist [1] cmi ≤ miDist [1] k :=
  c6_closest_cached_mi Int (MiDerivativeTaker.mk 1 [([0], 5)]) [1]
    (by decide) (by decide) (by decide) [0] (by decide) (by decide)

/-- Witness for C10: the closest-cached search succeeds on a concrete
cache holding only the zero multi-index. -/
theorem c10_zero_mi_always_cached_witness :
    (getClosestCachedMi
      (MiDerivativeTaker.mk 2 [([0, 0], (0 : Int))]) [3, 4]).isSome
      = true :=
  c10_zero_mi_always_cached.2.1 Int
    (MiDerivativeTaker.mk 2 [([0, 0], 0)]) [3, 4] (by decide)

/-- Witness for C2: a concrete one-step recurrence-aware walk with an
oracle that returns no relation, so the step differentiates once and the
result is cached at the intermediate multi-index. -/
theorem c2_lr_diff_recurrence_step_witness :
    lookupMi [([0], (5 : Int)), ([1], 6)] [1] = some 6 :=
  (c2_lr_diff_recurrence_step Int Int
    ⟨fun ax e => e + ax + 1, fun c e => c * e, fun l => l.sum⟩
    (fun _ _ => none) (MiDerivativeTaker.mk 1 [([0], 5)]) [1]
    (by decide) (by decide) (by decide) [0] (by decide) 5 (by decide)
    [] [] 0 [1] (by decide) 5 [([0], 5)] rfl 6 rfl 6
    (MiDerivativeTaker.mk 1 [([0], 5), ([1], 6)]) (by decide)).1

end Sumpy
